import Mathlib

/-!
Verification of the MoQ-style streaming core of `mobile-media-streaming`.

This file shallowly embeds the parts of the Rust sources that the checked
properties are about:

* `src/rust/src/api/moq_protocol.rs` — the MoQ data model (`MoqObject`,
  `MoqGroup`), the `TrackStore` (`start_group`, `add_object`, `get_objects`,
  `cleanup_old_groups`) and the `PriorityScheduler`
  (`enqueue`, `dequeue`, `drop_low_priority`);
* `src/rust/src/api/live_streaming.rs` — `VideoQuality::bitrate_kbps` and
  `ConnectionStats::recommended_quality`;
* `src/rust/src/api/iroh_live.rs` — `LiveTicket::serialize` /
  `LiveTicket::deserialize` (postcard wire format plus base32 text form).

Conventions of the embedding:

* Rust `u64`/`u8` values are modelled as `Nat`; none of the embedded code
  paths can overflow `u64` on the inputs considered, and `u8` fields carry
  a `< 256` side condition where it matters.
* `std::collections::HashMap` is modelled as an association list with
  unique keys (`kfind` / `kset` / `kdel` below).  All embedded queries
  either sort their results or are order-insensitive on well-formed
  (unique-key) states, so the map's iteration order is immaterial.
* Wall-clock time (`SystemTime::now`, `Instant::now`) is passed explicitly
  as a `now : Nat` argument to the operations that read the clock.
* Async locking (`tokio::sync::RwLock`) serialises the store operations;
  each operation is embedded as a pure state-passing function.
-/

set_option maxRecDepth 16384

namespace MMS

/-! ### Association lists: the model of `std::collections::HashMap` -/

/-- Lookup in an association list (`HashMap::get`). -/
def kfind {κ β : Type} [DecidableEq κ] (k : κ) : List (κ × β) → Option β
  | [] => none
  | (k', v) :: rest => if k' = k then some v else kfind k rest

/-- Insert-or-replace in an association list (`HashMap::insert`). -/
def kset {κ β : Type} [DecidableEq κ] (k : κ) (v : β) : List (κ × β) → List (κ × β)
  | [] => [(k, v)]
  | (k', v') :: rest => if k' = k then (k, v) :: rest else (k', v') :: kset k v rest

/-- Remove a key from an association list (`HashMap::remove`). -/
def kdel {κ β : Type} [DecidableEq κ] (k : κ) : List (κ × β) → List (κ × β)
  | [] => []
  | (k', v') :: rest => if k' = k then rest else (k', v') :: kdel k rest

/-! ### Insertion sort: the model of slice `sort` / `sort_by`

Rust's `sort_by` is a stable sort; on the inputs the embedded code sorts,
keys are pairwise distinct in well-formed states, so any comparison sort
computes the same list.  Insertion sort keeps the proofs elementary. -/

/-- Insert `a` into `l` before the first element `b` with `¬ le a b`. -/
def insSorted {α : Type} (le : α → α → Bool) (a : α) : List α → List α
  | [] => [a]
  | b :: rest => if le a b then a :: b :: rest else b :: insSorted le a rest

/-- Insertion sort with a boolean `≤` test. -/
def isort {α : Type} (le : α → α → Bool) (l : List α) : List α :=
  l.foldr (insSorted le) []

/-! ### MoQ data model (`moq_protocol.rs`) -/

/-- `ObjectStatus` from `moq_protocol.rs`. -/
inductive ObjectStatus where
  | Normal
  | DoesNotExist
  | EndOfGroup
  | EndOfTrack
  | EndOfSubgroup
deriving DecidableEq, Repr

/-- `MoqObject` from `moq_protocol.rs`.  `extensions` is a `HashMap` in the
source; no embedded operation ever inserts into it, so it is modelled as an
association list that stays `[]`.  Payload bytes are `Nat`s (`< 256` is
irrelevant to the store's behaviour). -/
structure MoqObject where
  group_id : Nat
  subgroup_id : Nat
  object_id : Nat
  publisher_priority : Nat
  expires_at : Option Nat
  status : ObjectStatus
  extensions : List (String × List Nat)
  payload : List Nat
  created_at : Nat
deriving DecidableEq, Repr

/-- `MoqObject::new`: default priority 128, no TTL, status `Normal`.
`created_at` is the current wall-clock time, passed as `now`. -/
def MoqObject.new (group_id subgroup_id object_id : Nat) (payload : List Nat)
    (now : Nat) : MoqObject :=
  { group_id := group_id
    subgroup_id := subgroup_id
    object_id := object_id
    publisher_priority := 128
    expires_at := none
    status := ObjectStatus.Normal
    extensions := []
    payload := payload
    created_at := now }

/-- `MoqObject::is_expired`: `now > expires` when a TTL is set. -/
def MoqObject.is_expired (o : MoqObject) (now : Nat) : Bool :=
  match o.expires_at with
  | some expires => decide (now > expires)
  | none => false

/-- `MoqGroup` from `moq_protocol.rs`: objects organised by subgroup. -/
structure MoqGroup where
  group_id : Nat
  subgroups : List (Nat × List MoqObject)
  is_complete : Bool
  created_at : Nat
deriving DecidableEq, Repr

/-- `MoqGroup::new`. -/
def MoqGroup.new (group_id : Nat) (now : Nat) : MoqGroup :=
  { group_id := group_id, subgroups := [], is_complete := false, created_at := now }

/-- `MoqGroup::add_object`: push onto the object's subgroup lane. -/
def MoqGroup.add_object (g : MoqGroup) (obj : MoqObject) : MoqGroup :=
  let lane := (kfind obj.subgroup_id g.subgroups).getD []
  { g with subgroups := kset obj.subgroup_id (lane ++ [obj]) g.subgroups }

/-- `MoqGroup::mark_complete`. -/
def MoqGroup.mark_complete (g : MoqGroup) : MoqGroup :=
  { g with is_complete := true }

/-- All objects of a group: `group.subgroups.values().flat_map(...)`. -/
def groupObjects (g : MoqGroup) : List MoqObject :=
  (g.subgroups.map Prod.snd).flatten

/-- `GroupOrder` from `moq_protocol.rs`. -/
inductive GroupOrder where
  | Ascending
  | Descending
  | PublisherDefault
deriving DecidableEq, Repr

/-- `FilterType` from `moq_protocol.rs`. -/
inductive FilterType where
  | LatestGroup
  | LatestObject
  | NextGroup
  | AbsoluteStart (start_group : Nat) (start_object : Nat)
  | AbsoluteRange (start_group : Nat) (start_object : Nat)
      (end_group : Nat) (end_object : Option Nat)
deriving DecidableEq, Repr

/-- `FullTrackName`: a namespace component list plus a track name. -/
structure FullTrackName where
  namespaceComponents : List String
  track_name : String
deriving DecidableEq, Repr

/-- `FullTrackName::to_path`. -/
def FullTrackName.to_path (t : FullTrackName) : String :=
  if t.namespaceComponents.isEmpty then t.track_name
  else String.intercalate "/" t.namespaceComponents ++ "/" ++ t.track_name

/-- `SubscriptionParams` (the fields `get_objects` reads). -/
structure SubscriptionParams where
  track : FullTrackName
  filter : FilterType
  group_order : GroupOrder
  subscriber_priority : Nat
  delivery_timeout_ms : Nat
deriving DecidableEq, Repr

/-! ### Track store (`moq_protocol.rs`, `TrackStore`)

`TrackData.status` in the source is a full `TrackStatus` record; the store
only ever reads or writes its `latest_group_id` / `latest_object_id`
fields (the rest are set once at track creation and never consulted by the
operations verified here), so exactly those two fields are embedded. -/

/-- `TrackData` from `moq_protocol.rs`. -/
structure TrackData where
  latest_group_id : Option Nat
  latest_object_id : Option Nat
  groups : List (Nat × MoqGroup)
  next_group_id : Nat
  next_object_id : List (Nat × Nat)
deriving DecidableEq, Repr

/-- Fresh `TrackData` as built by `get_or_create_track`. -/
def TrackData.new : TrackData :=
  { latest_group_id := none
    latest_object_id := none
    groups := []
    next_group_id := 0
    next_object_id := [] }

/-- `TrackStore`: track path → data, plus the retention bound `max_groups`.
The source also stores a `max_retention : Duration`; no operation reads it,
so it is omitted. -/
structure TrackStore where
  tracks : List (String × TrackData)
  max_groups : Nat
deriving DecidableEq, Repr

/-- `TrackStore::new` with empty contents. -/
def TrackStore.empty (max_groups : Nat) : TrackStore :=
  { tracks := [], max_groups := max_groups }

/-- `TrackStore::cleanup_old_groups`: when more than `max_groups` groups are
retained, drop the numerically smallest group ids (and their object-id
counters) until `max_groups` remain. -/
def cleanup_old_groups (max_groups : Nat) (d : TrackData) : TrackData :=
  if d.groups.length > max_groups then
    let ids := isort (fun a b => decide (a ≤ b)) (d.groups.map Prod.fst)
    let toRemove := ids.take (d.groups.length - max_groups)
    { d with
      groups := toRemove.foldl (fun gs gid => kdel gid gs) d.groups
      next_object_id := toRemove.foldl (fun m gid => kdel gid m) d.next_object_id }
  else d

/-- `TrackStore::get_or_create_track` (the returned status clone is not
modelled; only the state effect is). -/
def get_or_create_track (st : TrackStore) (track : FullTrackName) : TrackStore :=
  match kfind track.to_path st.tracks with
  | some _ => st
  | none => { st with tracks := kset track.to_path TrackData.new st.tracks }

/-- `TrackStore::start_group`: allocate the next group id, insert a fresh
group, reset its object counter, update `latest_group_id`, evict old
groups.  On a missing track the source returns `0` and changes nothing. -/
def start_group (st : TrackStore) (track : FullTrackName) (now : Nat) :
    Nat × TrackStore :=
  match kfind track.to_path st.tracks with
  | some d =>
      let gid := d.next_group_id
      let d' := { d with
        next_group_id := gid + 1
        groups := kset gid (MoqGroup.new gid now) d.groups
        next_object_id := kset gid 0 d.next_object_id
        latest_group_id := some gid }
      let d'' := cleanup_old_groups st.max_groups d'
      (gid, { st with tracks := kset track.to_path d'' st.tracks })
  | none => (0, st)

/-- `TrackStore::add_object`: on a missing track return `None`; otherwise
take the group's next object id (`entry(..).or_insert(0)`), build the
object, bump the counter, record `latest_object_id`, and append the object
to the group when (and only when) that group is retained. -/
def add_object (st : TrackStore) (track : FullTrackName) (group_id subgroup_id : Nat)
    (payload : List Nat) (now : Nat) : Option MoqObject × TrackStore :=
  match kfind track.to_path st.tracks with
  | some d =>
      let oid := (kfind group_id d.next_object_id).getD 0
      let obj := MoqObject.new group_id subgroup_id oid payload now
      let d' := { d with
        next_object_id := kset group_id (oid + 1) d.next_object_id
        latest_object_id := some obj.object_id
        groups :=
          match kfind group_id d.groups with
          | some g => kset group_id (g.add_object obj) d.groups
          | none => d.groups }
      (some obj, { st with tracks := kset track.to_path d' st.tracks })
  | none => (none, st)

/-- Ascending comparison used by `get_objects`' sort:
`(group_id, object_id)` lexicographic. -/
def objLeAsc (a b : MoqObject) : Bool :=
  decide (a.group_id < b.group_id) ||
    (decide (a.group_id = b.group_id) && decide (a.object_id ≤ b.object_id))

/-- Descending comparison used by `get_objects`' sort. -/
def objLeDesc (a b : MoqObject) : Bool :=
  decide (b.group_id < a.group_id) ||
    (decide (b.group_id = a.group_id) && decide (b.object_id ≤ a.object_id))

/-- The unsorted object selection of `TrackStore::get_objects` for a given
filter, before ordering and expiry filtering. -/
def filterObjects (d : TrackData) : FilterType → List MoqObject
  | FilterType.LatestGroup =>
      match d.latest_group_id with
      | some gid =>
          match kfind gid d.groups with
          | some g => groupObjects g
          | none => []
      | none => []
  | FilterType.LatestObject =>
      match d.latest_group_id, d.latest_object_id with
      | some gid, some oid =>
          match kfind gid d.groups with
          | some g => (groupObjects g).filter (fun o => decide (o.object_id = oid))
          | none => []
      | _, _ => []
  | FilterType.NextGroup => []
  | FilterType.AbsoluteStart sg so =>
      (d.groups.filter (fun p => decide (sg ≤ p.1))).flatMap (fun p =>
        (groupObjects p.2).filter (fun o =>
          decide (sg < p.1) || decide (so ≤ o.object_id)))
  | FilterType.AbsoluteRange sg so eg eo =>
      (d.groups.filter (fun p => decide (sg ≤ p.1) && decide (p.1 ≤ eg))).flatMap
        (fun p =>
          (groupObjects p.2).filter (fun o =>
            (decide (sg < p.1) || decide (so ≤ o.object_id)) &&
              (decide (p.1 < eg) ||
                (match eo with
                 | none => true
                 | some e => decide (o.object_id ≤ e)))))

/-- `TrackStore::get_objects`: select by filter, sort by group order,
drop expired objects.  Missing track gives `[]`. -/
def get_objects (st : TrackStore) (params : SubscriptionParams) (now : Nat) :
    List MoqObject :=
  match kfind params.track.to_path st.tracks with
  | some d =>
      let objects := filterObjects d params.filter
      let sorted :=
        match params.group_order with
        | GroupOrder.Ascending => isort objLeAsc objects
        | GroupOrder.PublisherDefault => isort objLeAsc objects
        | GroupOrder.Descending => isort objLeDesc objects
      sorted.filter (fun o => ! o.is_expired now)
  | none => []

/-- All retained objects of a track's data, across all groups. -/
def storedObjects (d : TrackData) : List MoqObject :=
  d.groups.flatMap (fun p => groupObjects p.2)

/-- The claim-side `AbsoluteRange` predicate on a single object (§4.D):
`(g > g₀ ∨ (g = g₀ ∧ o ≥ o₀)) ∧ (g < g₁ ∨ (g = g₁ ∧ (o₁ = None ∨ o ≤ o₁)))`. -/
def inRangeAsc (sg so eg : Nat) (eo : Option Nat) (o : MoqObject) : Bool :=
  (decide (sg < o.group_id) ||
      (decide (sg = o.group_id) && decide (so ≤ o.object_id))) &&
    (decide (o.group_id < eg) ||
      (decide (o.group_id = eg) &&
        (match eo with
         | none => true
         | some e => decide (o.object_id ≤ e))))

/-! ### Store well-formedness

The invariants that every `TrackStore` reachable through the public
operations satisfies.  They are stated as decidable propositions so that
concrete stores can discharge them by `decide`. -/

/-- Well-formedness of one retained group under its map key `gid` and its
object-id counter `c`: the stored `group_id` matches the key, subgroup
lanes are keyed consistently, object ids are below the counter and unique
across the whole group, and stored objects carry no TTL (the store only
ever inserts `MoqObject::new` objects, whose `expires_at` is `None`). -/
def WFgroup (gid : Nat) (g : MoqGroup) (c : Nat) : Prop :=
  g.group_id = gid ∧
  (g.subgroups.map Prod.fst).Nodup ∧
  (∀ p ∈ g.subgroups, ∀ o ∈ p.2,
      o.group_id = gid ∧ o.subgroup_id = p.1 ∧ o.object_id < c ∧
      o.expires_at = none) ∧
  ((groupObjects g).map MoqObject.object_id).Nodup

/-- Well-formedness of a track's data: unique map keys, every group key
below `next_group_id`, and every retained group well-formed under its
object-id counter (which must be present). -/
def WFtrack (d : TrackData) : Prop :=
  (d.groups.map Prod.fst).Nodup ∧
  (d.next_object_id.map Prod.fst).Nodup ∧
  (∀ p ∈ d.groups,
      p.1 < d.next_group_id ∧
      kfind p.1 d.next_object_id ≠ none ∧
      WFgroup p.1 p.2 ((kfind p.1 d.next_object_id).getD 0))

/-- Well-formedness of the whole store. -/
def WFstore (st : TrackStore) : Prop :=
  (st.tracks.map Prod.fst).Nodup ∧ ∀ p ∈ st.tracks, WFtrack p.2

instance (gid : Nat) (g : MoqGroup) (c : Nat) : Decidable (WFgroup gid g c) := by
  unfold WFgroup; infer_instance

instance (d : TrackData) : Decidable (WFtrack d) := by
  unfold WFtrack; infer_instance

instance (st : TrackStore) : Decidable (WFstore st) := by
  unfold WFstore; infer_instance

/-! ### Store operation traces

Used to express claims that quantify over "any interleaving of store
operations": a trace is a list of public mutating operations, applied in
order (return values discarded). -/

/-- One public mutating `TrackStore` operation. -/
inductive StoreOp where
  | create (track : FullTrackName)
  | start (track : FullTrackName) (now : Nat)
  | add (track : FullTrackName) (group_id subgroup_id : Nat)
      (payload : List Nat) (now : Nat)

/-- Apply one operation, discarding its return value. -/
def applyOp (st : TrackStore) : StoreOp → TrackStore
  | StoreOp.create track => get_or_create_track st track
  | StoreOp.start track now => (start_group st track now).2
  | StoreOp.add track gid sgid payload now =>
      (add_object st track gid sgid payload now).2

/-- Apply a trace of operations left to right. -/
def applyOps (st : TrackStore) (ops : List StoreOp) : TrackStore :=
  ops.foldl applyOp st

/-- The wall-clock timestamp an operation runs at (`create` reads no
clock; it is given timestamp 0, which is irrelevant to any claim). -/
def opTime : StoreOp → Nat
  | StoreOp.create _ => 0
  | StoreOp.start _ now => now
  | StoreOp.add _ _ _ _ now => now

/-! ### Priority scheduler (`moq_protocol.rs`, `PriorityScheduler`)

The scheduler's `pending` vector lives behind an async lock; each method
is embedded as a pure function of the queue.  `Instant::now()` readings
are passed as explicit `Nat` ticks; the runtime clock is monotone, which
trace hypotheses express as strictly increasing ticks. -/

/-- `PendingDelivery` from `moq_protocol.rs`. -/
structure PendingDelivery where
  object : MoqObject
  subscriber_priority : Nat
  effective_priority : Nat
  queued_at : Nat
deriving DecidableEq, Repr

/-- `PriorityScheduler::enqueue`: effective priority is the subscriber
priority; insert before the first strictly-greater entry
(`position(|d| d.effective_priority > p).unwrap_or(len)`), then pop from
the tail while the queue exceeds `max_queue_size`. -/
def enqueue (max_queue_size : Nat) (q : List PendingDelivery)
    (object : MoqObject) (subscriber_priority : Nat) (now : Nat) :
    List PendingDelivery :=
  let delivery : PendingDelivery :=
    { object := object
      subscriber_priority := subscriber_priority
      effective_priority := subscriber_priority
      queued_at := now }
  let pos := q.findIdx (fun d => decide (subscriber_priority < d.effective_priority))
  let q' := q.insertIdx pos delivery
  if q'.length > max_queue_size then q'.take max_queue_size else q'

/-- `PriorityScheduler::dequeue`: retain unexpired entries, then pop the
head. -/
def dequeue (q : List PendingDelivery) (now : Nat) :
    Option MoqObject × List PendingDelivery :=
  let q' := q.filter (fun d => ! d.object.is_expired now)
  match q' with
  | [] => (none, [])
  | d :: rest => (some d.object, rest)

/-- `PriorityScheduler::drop_low_priority`: purge entries with effective
priority above the threshold, reporting how many were removed. -/
def drop_low_priority (q : List PendingDelivery) (threshold : Nat) :
    Nat × List PendingDelivery :=
  let q' := q.filter (fun d => decide (d.effective_priority ≤ threshold))
  (q.length - q'.length, q')

/-- Scheduler states reachable from the empty queue through the public
methods.  The `Nat` component is a lower bound on the next `Instant` tick:
enqueue timestamps are strictly increasing, as `Instant::now()` readings
taken one after the other under the same lock are. -/
inductive SchedReach (max_queue_size : Nat) : Nat → List PendingDelivery → Prop
  | init : SchedReach max_queue_size 0 []
  | enq {t q} (o : MoqObject) (sp : Nat) {now : Nat} :
      SchedReach max_queue_size t q → t ≤ now →
      SchedReach max_queue_size (now + 1) (enqueue max_queue_size q o sp now)
  | deq {t q} (now : Nat) :
      SchedReach max_queue_size t q →
      SchedReach max_queue_size t (dequeue q now).2
  | drop {t q} (threshold : Nat) :
      SchedReach max_queue_size t q →
      SchedReach max_queue_size t (drop_low_priority q threshold).2

/-- The scheduler queue ordering: strictly smaller effective priority, or
equal priority and strictly earlier enqueue time (arrival order). -/
def SchedRel (a b : PendingDelivery) : Prop :=
  a.effective_priority < b.effective_priority ∨
    (a.effective_priority = b.effective_priority ∧ a.queued_at < b.queued_at)

/-- Insert before the first element satisfying `p`; the semantics of
`enqueue`'s `position(..).unwrap_or(len)` followed by `insert`. -/
def insertBefore {α : Type} (p : α → Bool) (a : α) : List α → List α
  | [] => [a]
  | b :: rest => if p b then a :: b :: rest else b :: insertBefore p a rest

/-- The scheduler queue invariant: sorted by effective priority ascending,
with ties in strictly increasing enqueue-time order, and all enqueue times
below the clock bound. -/
def SchedInv (t : Nat) (q : List PendingDelivery) : Prop :=
  q.Pairwise SchedRel ∧ ∀ d ∈ q, d.queued_at < t

/-! ### Video quality and connection stats (`live_streaming.rs`) -/

/-- `VideoQuality` from `live_streaming.rs`. -/
inductive VideoQuality where
  | P180
  | P360
  | P720
  | P1080
deriving DecidableEq, Repr

/-- `VideoQuality::bitrate_kbps`. -/
def VideoQuality.bitrate_kbps : VideoQuality → Nat
  | VideoQuality.P180 => 300
  | VideoQuality.P360 => 800
  | VideoQuality.P720 => 2500
  | VideoQuality.P1080 => 5000

/-- Position of a rendition in the low-to-high ladder
(`VideoQuality::all()` order). -/
def VideoQuality.rank : VideoQuality → Nat
  | VideoQuality.P180 => 0
  | VideoQuality.P360 => 1
  | VideoQuality.P720 => 2
  | VideoQuality.P1080 => 3

/-- `ConnectionStats` from `live_streaming.rs`, restricted to its integer
fields (`packet_loss : f64` is never read by `recommended_quality` and is
omitted; floating point is outside this embedding). -/
structure ConnectionStats where
  bytes_sent : Nat
  bytes_received : Nat
  chunks_sent : Nat
  chunks_received : Nat
  bandwidth_bps : Nat
  rtt_ms : Nat
  quality_score : Nat
  last_updated : Nat
deriving DecidableEq, Repr

/-- `ConnectionStats::recommended_quality`: cascade from the highest
rendition down, with a ×2 headroom on the advertised bitrate. -/
def recommended_quality (s : ConnectionStats) : VideoQuality :=
  let bandwidth_kbps := s.bandwidth_bps / 1000
  if bandwidth_kbps ≥ VideoQuality.P1080.bitrate_kbps * 2 then VideoQuality.P1080
  else if bandwidth_kbps ≥ VideoQuality.P720.bitrate_kbps * 2 then VideoQuality.P720
  else if bandwidth_kbps ≥ VideoQuality.P360.bitrate_kbps * 2 then VideoQuality.P360
  else VideoQuality.P180

/-- The spec's reading of §4.J, for comparison with the code: the lowest
rendition whose advertised bitrate × 2 is at most the current bandwidth in
kbps, else the lowest available (`P180`).
Modelled from the spec: "`recommended_quality` = lowest rendition whose
advertised bitrate × 2 ≤ current bandwidth (else the lowest available)". -/
def specLowestQuality (s : ConnectionStats) : VideoQuality :=
  let bandwidth_kbps := s.bandwidth_bps / 1000
  if bandwidth_kbps ≥ VideoQuality.P180.bitrate_kbps * 2 then VideoQuality.P180
  else if bandwidth_kbps ≥ VideoQuality.P360.bitrate_kbps * 2 then VideoQuality.P360
  else if bandwidth_kbps ≥ VideoQuality.P720.bitrate_kbps * 2 then VideoQuality.P720
  else if bandwidth_kbps ≥ VideoQuality.P1080.bitrate_kbps * 2 then VideoQuality.P1080
  else VideoQuality.P180

/-! ### Live ticket (`iroh_live.rs`, `LiveTicket`)

`LiveTicket::serialize` is `postcard::to_stdvec` followed by
`BASE32_NOPAD.encode(..).to_ascii_lowercase()`; `deserialize` uppercases,
base32-decodes and runs `postcard::from_bytes`.  The postcard wire format
is embedded field by field (LEB128 varints for lengths/ports, one-byte
option and enum-variant tags, raw bytes for fixed arrays).  The external
`iroh::EndpointId` is, per §6 of the spec, a `[u8;32]` record field;
it is modelled as 32 raw bytes.  Byte strings are lists of `Nat` with a
`< 256` well-formedness side condition. -/

/-- LEB128 varint encoding (postcard's integer wire format). -/
def varint (n : Nat) : List Nat :=
  if n < 128 then [n] else (n % 128 + 128) :: varint (n / 128)
  termination_by n
  decreasing_by exact Nat.div_lt_self (by omega) (by omega)

/-- LEB128 varint decoding, returning the value and the remaining bytes. -/
def readVarint : List Nat → Option (Nat × List Nat)
  | [] => none
  | b :: rest =>
      if b < 128 then some (b, rest)
      else
        match readVarint rest with
        | some (m, r) => some ((b - 128) + 128 * m, r)
        | none => none

/-- Read exactly `n` raw bytes. -/
def readBytes (n : Nat) (l : List Nat) : Option (List Nat × List Nat) :=
  if n ≤ l.length then some (l.take n, l.drop n) else none

/-- Postcard `String` / `Vec<u8>` style encoding: varint length + bytes. -/
def encBytesVar (s : List Nat) : List Nat := varint s.length ++ s

/-- Decoder for `encBytesVar`. -/
def readBytesVar (l : List Nat) : Option (List Nat × List Nat) :=
  match readVarint l with
  | some (n, r) => readBytes n r
  | none => none

/-- Postcard `Option` encoding: tag byte 0 (`None`) or 1 (`Some`) + value. -/
def encOptionP {α : Type} (f : α → List Nat) : Option α → List Nat
  | none => [0]
  | some a => 1 :: f a

/-- Decoder for `encOptionP`. -/
def readOptionP {α : Type} (f : List Nat → Option (α × List Nat)) :
    List Nat → Option (Option α × List Nat)
  | [] => none
  | b :: rest =>
      if b = 0 then some (none, rest)
      else if b = 1 then
        match f rest with
        | some (a, r) => some (some a, r)
        | none => none
      else none

/-- Read `n` consecutive records with the element decoder `f`. -/
def readN {α : Type} (f : List Nat → Option (α × List Nat)) :
    Nat → List Nat → Option (List α × List Nat)
  | 0, l => some ([], l)
  | n + 1, l =>
      match f l with
      | some (a, r) =>
          match readN f n r with
          | some (as_, r') => some (a :: as_, r')
          | none => none
      | none => none

/-- Postcard `Vec` encoding: varint length + concatenated elements. -/
def encListP {α : Type} (f : α → List Nat) (l : List α) : List Nat :=
  varint l.length ++ (l.map f).flatten

/-- Decoder for `encListP`. -/
def readListP {α : Type} (f : List Nat → Option (α × List Nat)) (l : List Nat) :
    Option (List α × List Nat) :=
  match readVarint l with
  | some (n, r) => readN f n r
  | none => none

/-- `std::net::SocketAddr` as serde serialises it in a compact format:
an enum with variants `V4(ip4, port)` and `V6(ip6, port)`. -/
inductive SockAddr where
  | v4 (ip : List Nat) (port : Nat)
  | v6 (ip : List Nat) (port : Nat)
deriving DecidableEq, Repr

/-- Postcard encoding of a `SocketAddr`: variant tag, raw ip bytes
(4 or 16, a fixed-size array), varint port. -/
def encSockAddr : SockAddr → List Nat
  | SockAddr.v4 ip port => 0 :: (ip ++ varint port)
  | SockAddr.v6 ip port => 1 :: (ip ++ varint port)

/-- Decoder for `encSockAddr`. -/
def readSockAddr : List Nat → Option (SockAddr × List Nat)
  | [] => none
  | b :: rest =>
      if b = 0 then
        match readBytes 4 rest with
        | some (ip, r) =>
            match readVarint r with
            | some (port, r') => some (SockAddr.v4 ip port, r')
            | none => none
        | none => none
      else if b = 1 then
        match readBytes 16 rest with
        | some (ip, r) =>
            match readVarint r with
            | some (port, r') => some (SockAddr.v6 ip port, r')
            | none => none
        | none => none
      else none

/-- Type-level well-formedness of a socket address: ip byte-array lengths
fixed by the variant, bytes below 256, port a `u16`. -/
def WFsockAddr : SockAddr → Prop
  | SockAddr.v4 ip port => ip.length = 4 ∧ (∀ b ∈ ip, b < 256) ∧ port < 65536
  | SockAddr.v6 ip port => ip.length = 16 ∧ (∀ b ∈ ip, b < 256) ∧ port < 65536

instance (a : SockAddr) : Decidable (WFsockAddr a) := by
  cases a <;> (unfold WFsockAddr; infer_instance)

/-- `LiveTicket` from `iroh_live.rs`: endpoint id, broadcast name,
optional relay URL, direct socket addresses (in struct field order).
Strings are modelled as their UTF-8 byte lists. -/
structure LiveTicket where
  endpoint_id : List Nat
  broadcast_name : List Nat
  relay_url : Option (List Nat)
  direct_addrs : List SockAddr
deriving DecidableEq, Repr

/-- Type-level well-formedness of a ticket: the 32-byte endpoint id and
byte-valued strings, with well-formed addresses. -/
def WFticket (t : LiveTicket) : Prop :=
  t.endpoint_id.length = 32 ∧ (∀ b ∈ t.endpoint_id, b < 256) ∧
  (∀ b ∈ t.broadcast_name, b < 256) ∧
  (∀ s, t.relay_url = some s → ∀ b ∈ s, b < 256) ∧
  (∀ a ∈ t.direct_addrs, WFsockAddr a)

instance (t : LiveTicket) : Decidable (WFticket t) := by
  unfold WFticket; infer_instance

/-- Postcard encoding of a `LiveTicket` (struct = fields in order). -/
def encTicket (t : LiveTicket) : List Nat :=
  t.endpoint_id ++ encBytesVar t.broadcast_name ++
    encOptionP encBytesVar t.relay_url ++ encListP encSockAddr t.direct_addrs

/-- Postcard decoding of a `LiveTicket`; trailing bytes are returned
(postcard's `from_bytes` ignores them). -/
def readTicket (l : List Nat) : Option (LiveTicket × List Nat) :=
  match readBytes 32 l with
  | some (eid, r1) =>
      match readBytesVar r1 with
      | some (name, r2) =>
          match readOptionP readBytesVar r2 with
          | some (url, r3) =>
              match readListP readSockAddr r3 with
              | some (addrs, r4) =>
                  some ({ endpoint_id := eid, broadcast_name := name,
                          relay_url := url, direct_addrs := addrs }, r4)
              | none => none
          | none => none
      | none => none
  | none => none

/-! Base32 (RFC 4648 alphabet, no padding), as `data_encoding::BASE32_NOPAD`
computes it: the byte stream is processed in 5-byte blocks, each block of
`r` bytes emitting `⌈8r/5⌉` characters covering the block's bits padded
with zero bits.  Arithmetic on block values replaces bit lists. -/

/-- `k` base-`B` digits of `n`, least significant first. -/
def toDigitsLE (B : Nat) : Nat → Nat → List Nat
  | 0, _ => []
  | k + 1, n => n % B :: toDigitsLE B k (n / B)

/-- Value of a least-significant-first digit list. -/
def fromDigitsLE (B : Nat) (l : List Nat) : Nat :=
  l.foldr (fun d acc => d + B * acc) 0

/-- `k` base-`B` digits of `n`, most significant first. -/
def toDigitsBE (B k n : Nat) : List Nat := (toDigitsLE B k n).reverse

/-- Value of a most-significant-first digit list. -/
def fromDigitsBE (B : Nat) (l : List Nat) : Nat := fromDigitsLE B l.reverse

/-- Characters emitted for a block of `r` bytes: `⌈8r/5⌉`. -/
def b32chars (r : Nat) : Nat := (8 * r + 4) / 5

/-- Zero bits padded onto a block of `r` bytes. -/
def b32pad (r : Nat) : Nat := 5 * b32chars r - 8 * r

/-- Split a list into consecutive blocks of `n` elements (last may be
short). -/
def chunksOf {α : Type} (n : Nat) (l : List α) : List (List α) :=
  if h : l.isEmpty ∨ n = 0 then []
  else l.take n :: chunksOf n (l.drop n)
  termination_by l.length
  decreasing_by
    have hn : n ≠ 0 := fun hn0 => h (Or.inr hn0)
    have hl : 0 < l.length := by
      rcases l with _ | ⟨a, l⟩
      · exact absurd (Or.inl rfl) h
      · simp
    simp only [List.length_drop]
    omega

/-- Base32 digit values (0–31) for one block of at most 5 bytes. -/
def encChunk (chunk : List Nat) : List Nat :=
  toDigitsBE 32 (b32chars chunk.length) (fromDigitsBE 256 chunk * 2 ^ b32pad chunk.length)

/-- Bytes recovered from one block of base32 digit values (drop the zero
padding bits). -/
def decChunk (digs : List Nat) : List Nat :=
  let r := 5 * digs.length / 8
  toDigitsBE 256 r (fromDigitsBE 32 digs / 2 ^ (5 * digs.length - 8 * r))

/-- RFC 4648 base32 alphabet: value → ASCII (`A`–`Z`, `2`–`7`). -/
def b32alpha (v : Nat) : Nat := if v < 26 then 65 + v else 24 + v

/-- Inverse alphabet lookup on ASCII codes. -/
def b32val (c : Nat) : Nat := if c < 56 then c - 24 else c - 65

/-- `u8::to_ascii_lowercase`. -/
def asciiLower (c : Nat) : Nat := if 65 ≤ c ∧ c ≤ 90 then c + 32 else c

/-- `u8::to_ascii_uppercase`. -/
def asciiUpper (c : Nat) : Nat := if 97 ≤ c ∧ c ≤ 122 then c - 32 else c

/-- `BASE32_NOPAD.encode` on a byte list, as ASCII codes. -/
def base32encode (bytes : List Nat) : List Nat :=
  (((chunksOf 5 bytes).map encChunk).flatten).map b32alpha

/-- `BASE32_NOPAD.decode` on ASCII codes (on well-formed input; the
library's error cases cannot arise on round trips). -/
def base32decode (chars : List Nat) : List Nat :=
  ((chunksOf 8 (chars.map b32val)).map decChunk).flatten

/-- `LiveTicket::serialize`: postcard bytes, base32, lowercased. -/
def LiveTicket.serialize (t : LiveTicket) : List Nat :=
  (base32encode (encTicket t)).map asciiLower

/-- `LiveTicket::deserialize`: uppercase, base32-decode, postcard-decode. -/
def LiveTicket.deserialize (s : List Nat) : Option LiveTicket :=
  (readTicket (base32decode (s.map asciiUpper))).map Prod.fst

/-! ### Concrete states for counterexamples and witnesses -/

/-- The track `test/video` used by the concrete scenarios. -/
def tTrack : FullTrackName :=
  { namespaceComponents := ["test"], track_name := "video" }

/-- The latest-group-id / latest-object-id of a track in a store. -/
def trackLatestGroup (st : TrackStore) (track : FullTrackName) : Option Nat :=
  match kfind track.to_path st.tracks with
  | some d => d.latest_group_id
  | none => none

/-- The latest-object-id recorded for a track in a store. -/
def trackLatestObject (st : TrackStore) (track : FullTrackName) : Option Nat :=
  match kfind track.to_path st.tracks with
  | some d => d.latest_object_id
  | none => none

/-- All retained objects of a track in a store (empty for missing tracks). -/
def trackObjects (st : TrackStore) (track : FullTrackName) : List MoqObject :=
  match kfind track.to_path st.tracks with
  | some d => storedObjects d
  | none => []

/-- Subscription on `tTrack` with a given filter, ascending order
(`SubscriptionParams::new` defaults). -/
def mkParams (filter : FilterType) : SubscriptionParams :=
  { track := tTrack
    filter := filter
    group_order := GroupOrder.Ascending
    subscriber_priority := 128
    delivery_timeout_ms := 0 }

/-- The S3 scenario store: track created, groups 0–9 started in order,
10 objects added to each (subgroup 0, empty payloads, all at time 0),
`max_groups = 100` so nothing is evicted.  `start_group` hands out ids
0,1,2,…, so group `g`'s id is `g`. -/
def s3Store : TrackStore :=
  applyOps (TrackStore.empty 100)
    (StoreOp.create tTrack ::
      (List.range 10).flatMap (fun g =>
        StoreOp.start tTrack 0 ::
          (List.range 10).map (fun _ => StoreOp.add tTrack g 0 [] 0)))

/-- `AbsoluteRange(3, 5, 5, None)` subscription of the S3 scenario. -/
def s3Params : SubscriptionParams :=
  mkParams (FilterType.AbsoluteRange 3 5 5 none)

/-- The `(group_id, object_id)` pairs S3 expects: group 3 objects 5–9,
all of groups 4 and 5, ascending. -/
def s3Expected : List (Nat × Nat) :=
  ((List.range 5).map (fun o => (3, o + 5))) ++
    ((List.range 10).map (fun o => (4, o))) ++
    ((List.range 10).map (fun o => (5, o)))

/-- Store whose most recently started group is empty while group 0 holds
objects: create, start (id 0), two adds into group 0, start (id 1). -/
def emptyLatestStore : TrackStore :=
  applyOps (TrackStore.empty 10)
    [StoreOp.create tTrack,
     StoreOp.start tTrack 0,
     StoreOp.add tTrack 0 0 [1] 0,
     StoreOp.add tTrack 0 0 [2] 0,
     StoreOp.start tTrack 1]

/-- Mark one retained group of a track complete (test harness around
`MoqGroup::mark_complete`; the store itself exposes no completion call). -/
def markGroupComplete (st : TrackStore) (track : FullTrackName) (gid : Nat) :
    TrackStore :=
  match kfind track.to_path st.tracks with
  | some d =>
      match kfind gid d.groups with
      | some g =>
          let d' : TrackData := { d with groups := kset gid g.mark_complete d.groups }
          { st with tracks := kset track.to_path d' st.tracks }
      | none => st
  | none => st

/-- Store with one object in group 0 and group 0 marked complete. -/
def completeGroupStore : TrackStore :=
  markGroupComplete
    (applyOps (TrackStore.empty 10)
      [StoreOp.create tTrack,
       StoreOp.start tTrack 0,
       StoreOp.add tTrack 0 0 [42] 0])
    tTrack 0

/-- Two distinguishable scheduler objects for the priority scenarios. -/
def oHi : MoqObject := MoqObject.new 0 0 0 [] 0

/-- Second scheduler object (differs from `oHi` in `object_id`). -/
def oLo : MoqObject := MoqObject.new 0 0 1 [] 0

/-- Stats with a smoothed bandwidth of 10 Mbps (10 000 kbps). -/
def c7Stats : ConnectionStats :=
  { bytes_sent := 0, bytes_received := 0, chunks_sent := 0, chunks_received := 0
    bandwidth_bps := 10000000, rtt_ms := 0, quality_score := 0, last_updated := 0 }

/-- A concrete well-formed ticket: 32-byte endpoint id, name "live",
a relay URL, one IPv4 and one IPv6 direct address. -/
def sampleTicket : LiveTicket :=
  { endpoint_id := (List.range 32).map (fun i => i * 7 % 256)
    broadcast_name := [108, 105, 118, 101]
    relay_url := some [104, 116, 116, 112, 115]
    direct_addrs := [SockAddr.v4 [192, 168, 1, 20] 4433,
                     SockAddr.v6 (List.replicate 16 0) 443] }

/-! ## Helper lemmas: association lists -/

/-- A key is absent exactly when lookup fails. -/
theorem kfind_eq_none {κ β : Type} [DecidableEq κ] {k : κ} {l : List (κ × β)} :
    kfind k l = none ↔ k ∉ l.map Prod.fst := by
  induction l with
  | nil => simp [kfind]
  | cons p rest ih =>
      obtain ⟨k', v⟩ := p
      by_cases h : k' = k
      · subst h; simp [kfind]
      · simp [kfind, h, ih, Ne.symm h]

/-- Successful lookup produces a member. -/
theorem kfind_mem {κ β : Type} [DecidableEq κ] {k : κ} {v : β} {l : List (κ × β)}
    (h : kfind k l = some v) : (k, v) ∈ l := by
  induction l with
  | nil => simp [kfind] at h
  | cons p rest ih =>
      obtain ⟨k', v'⟩ := p
      by_cases hk : k' = k
      · subst hk
        simp [kfind] at h
        simp [h]
      · simp [kfind, hk] at h
        exact List.mem_cons_of_mem _ (ih h)

/-- Lookup after insert at the same key. -/
theorem kfind_kset_self {κ β : Type} [DecidableEq κ] (k : κ) (v : β)
    (l : List (κ × β)) : kfind k (kset k v l) = some v := by
  induction l with
  | nil => simp [kset, kfind]
  | cons p rest ih =>
      obtain ⟨k', v'⟩ := p
      by_cases h : k' = k
      · subst h; simp [kset, kfind]
      · simp [kset, kfind, h, ih]

/-- Lookup after insert at a different key. -/
theorem kfind_kset_ne {κ β : Type} [DecidableEq κ] {k k' : κ} (h : k' ≠ k)
    (v : β) (l : List (κ × β)) : kfind k' (kset k v l) = kfind k' l := by
  induction l with
  | nil => simp [kset, kfind, Ne.symm h]
  | cons p rest ih =>
      obtain ⟨k'', v'⟩ := p
      by_cases hk : k'' = k
      · subst hk
        simp [kset, kfind, Ne.symm h]
      · simp [kset, kfind, hk, ih]

/-- The key list after insert: unchanged if present, appended if fresh. -/
theorem keys_kset {κ β : Type} [DecidableEq κ] (k : κ) (v : β)
    (l : List (κ × β)) :
    (kset k v l).map Prod.fst =
      if k ∈ l.map Prod.fst then l.map Prod.fst else l.map Prod.fst ++ [k] := by
  induction l with
  | nil => simp [kset]
  | cons p rest ih =>
      obtain ⟨k', v'⟩ := p
      by_cases h : k' = k
      · subst h; simp [kset]
      · simp only [kset, if_neg h, List.map_cons, ih]
        by_cases hk : k ∈ rest.map Prod.fst
        · simp [hk, Ne.symm h]
        · simp [hk, Ne.symm h]

/-- Insert preserves key uniqueness. -/
theorem nodup_keys_kset {κ β : Type} [DecidableEq κ] {k : κ} {v : β}
    {l : List (κ × β)} (h : (l.map Prod.fst).Nodup) :
    ((kset k v l).map Prod.fst).Nodup := by
  rw [keys_kset]
  split
  · exact h
  · next hk =>
      rw [List.nodup_append]
      refine ⟨h, List.nodup_singleton k, ?_⟩
      intro x hx hx1
      simp only [List.mem_singleton] at hx1
      subst hx1
      exact hk hx

/-- Members of an insert, on unique keys: the new pair or an old pair with a
different key. -/
theorem mem_kset {κ β : Type} [DecidableEq κ] {p : κ × β} {k : κ} {v : β}
    {l : List (κ × β)} (hnd : (l.map Prod.fst).Nodup) (h : p ∈ kset k v l) :
    p = (k, v) ∨ (p ∈ l ∧ p.1 ≠ k) := by
  induction l with
  | nil => simp [kset] at h; simp [h]
  | cons q rest ih =>
      obtain ⟨k', v'⟩ := q
      simp only [List.map_cons, List.nodup_cons] at hnd
      by_cases hk : k' = k
      · subst hk
        simp only [kset, if_pos rfl] at h
        rcases List.mem_cons.mp h with h | h
        · exact Or.inl h
        · refine Or.inr ⟨List.mem_cons_of_mem _ h, ?_⟩
          intro hpk
          exact hnd.1 (hpk ▸ List.mem_map_of_mem Prod.fst h)
      · simp only [kset, if_neg hk] at h
        rcases List.mem_cons.mp h with h | h
        · subst h; exact Or.inr ⟨List.mem_cons_self _ _, hk⟩
        · rcases ih hnd.2 h with h | ⟨h1, h2⟩
          · exact Or.inl h
          · exact Or.inr ⟨List.mem_cons_of_mem _ h1, h2⟩

/-- Delete yields a sublist. -/
theorem kdel_sublist {κ β : Type} [DecidableEq κ] (k : κ) (l : List (κ × β)) :
    (kdel k l).Sublist l := by
  induction l with
  | nil => simp [kdel]
  | cons p rest ih =>
      obtain ⟨k', v'⟩ := p
      by_cases h : k' = k
      · subst h
        simpa [kdel] using List.sublist_cons_self (k, v') rest
      · simpa [kdel, h] using ih.cons₂ (k', v')

/-- Members survive deletion backwards. -/
theorem mem_kdel {κ β : Type} [DecidableEq κ] {p : κ × β} {k : κ}
    {l : List (κ × β)} (h : p ∈ kdel k l) : p ∈ l :=
  (kdel_sublist k l).subset h

/-- Delete preserves key uniqueness. -/
theorem nodup_keys_kdel {κ β : Type} [DecidableEq κ] {k : κ}
    {l : List (κ × β)} (h : (l.map Prod.fst).Nodup) :
    ((kdel k l).map Prod.fst).Nodup :=
  h.sublist ((kdel_sublist k l).map Prod.fst)

/-- Lookup of another key is unaffected by deletion. -/
theorem kfind_kdel_ne {κ β : Type} [DecidableEq κ] {k k' : κ} (h : k' ≠ k)
    (l : List (κ × β)) : kfind k' (kdel k l) = kfind k' l := by
  induction l with
  | nil => simp [kdel]
  | cons p rest ih =>
      obtain ⟨k'', v'⟩ := p
      by_cases hk : k'' = k
      · subst hk
        simp [kdel, kfind, Ne.symm h]
      · simp [kdel, kfind, hk, ih]

/-- On unique keys, deletion removes the key entirely. -/
theorem kfind_kdel_self {κ β : Type} [DecidableEq κ] {k : κ}
    {l : List (κ × β)} (h : (l.map Prod.fst).Nodup) :
    kfind k (kdel k l) = none := by
  induction l with
  | nil => simp [kdel, kfind]
  | cons p rest ih =>
      obtain ⟨k', v'⟩ := p
      simp only [List.map_cons, List.nodup_cons] at h
      by_cases hk : k' = k
      · subst hk
        simpa [kdel, kfind_eq_none] using h.1
      · simp [kdel, kfind, hk, ih h.2]

/-! ## Helper lemmas: insertion sort -/

/-- `insSorted` inserts: the result is a permutation of consing. -/
theorem perm_insSorted {α : Type} (le : α → α → Bool) (a : α) (l : List α) :
    (insSorted le a l).Perm (a :: l) := by
  induction l with
  | nil => simp [insSorted]
  | cons b rest ih =>
      by_cases h : le a b
      · simp [insSorted, h]
      · simp only [insSorted, h, Bool.false_eq_true, if_false]
        exact (ih.cons b).trans (List.Perm.swap a b rest)

/-- `isort` permutes its input. -/
theorem perm_isort {α : Type} (le : α → α → Bool) (l : List α) :
    (isort le l).Perm l := by
  induction l with
  | nil => simp [isort]
  | cons a rest ih =>
      exact ((perm_insSorted le a (isort le rest)).trans (ih.cons a))

/-- Membership in the sorted list. -/
theorem mem_isort {α : Type} {le : α → α → Bool} {a : α} {l : List α} :
    a ∈ isort le l ↔ a ∈ l :=
  (perm_isort le l).mem_iff

/-- Inserting into a sorted list keeps it sorted, for a total transitive
boolean order. -/
theorem pairwise_insSorted {α : Type} {le : α → α → Bool}
    (htot : ∀ a b, le a b = true ∨ le b a = true)
    (htrans : ∀ a b c, le a b = true → le b c = true → le a c = true)
    {a : α} {l : List α} (h : l.Pairwise (fun x y => le x y = true)) :
    (insSorted le a l).Pairwise (fun x y => le x y = true) := by
  induction l with
  | nil => simp [insSorted]
  | cons b rest ih =>
      rcases List.pairwise_cons.mp h with ⟨hb, hrest⟩
      by_cases hab : le a b = true
      · simp only [insSorted, hab, if_true]
        refine List.pairwise_cons.mpr ⟨?_, h⟩
        intro x hx
        rcases List.mem_cons.mp hx with rfl | hx
        · exact hab
        · exact htrans a b x hab (hb x hx)
      · have hba : le b a = true := (htot a b).resolve_left hab
        simp only [insSorted, hab, Bool.false_eq_true, if_false]
        refine List.pairwise_cons.mpr ⟨?_, ih hrest⟩
        intro x hx
        rcases List.mem_cons.mp ((perm_insSorted le a rest).mem_iff.mp hx) with rfl | hx
        · exact hba
        · exact hb x hx

/-- Insertion sort sorts, for a total transitive boolean order. -/
theorem pairwise_isort {α : Type} {le : α → α → Bool}
    (htot : ∀ a b, le a b = true ∨ le b a = true)
    (htrans : ∀ a b c, le a b = true → le b c = true → le a c = true)
    (l : List α) :
    (isort le l).Pairwise (fun x y => le x y = true) := by
  induction l with
  | nil => simp [isort]
  | cons a rest ih => exact pairwise_insSorted htot htrans ih

/-! ## Helper lemmas: groups and well-formedness preservation -/

/-- A member's key is always found. -/
theorem mem_imp_kfind_ne_none {κ β : Type} [DecidableEq κ] {p : κ × β}
    {l : List (κ × β)} (h : p ∈ l) : kfind p.1 l ≠ none := by
  intro hn
  exact (kfind_eq_none.mp hn) (List.mem_map_of_mem Prod.fst h)

/-- Appending to the lane read by `kfind` appends to the flattened values,
up to permutation. -/
theorem flatten_kset_lane_perm {κ α : Type} [DecidableEq κ] (k : κ)
    (xs : List α) (l : List (κ × List α)) :
    (((kset k ((kfind k l).getD [] ++ xs) l).map Prod.snd).flatten).Perm
      (((l.map Prod.snd).flatten) ++ xs) := by
  induction l with
  | nil => simp [kset, kfind]
  | cons p rest ih =>
      obtain ⟨k', v⟩ := p
      by_cases h : k' = k
      · subst h
        simp only [kfind, kset, if_pos, Option.getD_some, List.map_cons,
          List.flatten_cons, eq_self_iff_true, if_true]
        rw [List.append_assoc, List.append_assoc]
        exact List.Perm.append_left v List.perm_append_comm
      · simp only [kfind, if_neg h, kset, List.map_cons, List.flatten_cons]
        rw [List.append_assoc]
        exact List.Perm.append_left v ih

/-- `MoqGroup::add_object` appends the object, up to permutation. -/
theorem groupObjects_add_object (g : MoqGroup) (obj : MoqObject) :
    (groupObjects (g.add_object obj)).Perm (groupObjects g ++ [obj]) := by
  simpa [MoqGroup.add_object, groupObjects] using
    flatten_kset_lane_perm obj.subgroup_id [obj] g.subgroups

/-- Membership in a group's objects through its subgroup lanes. -/
theorem mem_groupObjects {g : MoqGroup} {o : MoqObject} :
    o ∈ groupObjects g ↔ ∃ p ∈ g.subgroups, o ∈ p.2 := by
  simp only [groupObjects, List.mem_flatten, List.mem_map]
  constructor
  · rintro ⟨lane, ⟨p, hp, rfl⟩, ho⟩
    exact ⟨p, hp, ho⟩
  · rintro ⟨p, hp, ho⟩
    exact ⟨p.2, ⟨p, hp, rfl⟩, ho⟩

/-- `add_object` preserves group well-formedness, bumping the counter. -/
theorem wfgroup_add_object {gid : Nat} {g : MoqGroup} {c : Nat}
    (hwf : WFgroup gid g c) (sgid : Nat) (payload : List Nat) (now : Nat) :
    WFgroup gid (g.add_object (MoqObject.new gid sgid c payload now)) (c + 1) := by
  obtain ⟨hgid, hnd, hlane, hids⟩ := hwf
  set obj := MoqObject.new gid sgid c payload now with hobj
  refine ⟨hgid, ?_, ?_, ?_⟩
  · exact nodup_keys_kset hnd
  · intro p hp o ho
    rcases mem_kset hnd hp with rfl | ⟨hp, hpk⟩
    · rcases List.mem_append.mp ho with ho | ho
      · rcases Option.eq_none_or_eq_some (kfind obj.subgroup_id g.subgroups) with
          hf | ⟨v, hf⟩
        · simp [hf] at ho
        · have := hlane _ (kfind_mem hf) o (by simpa [hf] using ho)
          exact ⟨this.1, this.2.1, Nat.lt_succ_of_lt this.2.2.1, this.2.2.2⟩
      · simp only [List.mem_singleton] at ho
        subst ho
        exact ⟨rfl, rfl, Nat.lt_succ_self c, rfl⟩
    · have := hlane p hp o ho
      exact ⟨this.1, this.2.1, Nat.lt_succ_of_lt this.2.2.1, this.2.2.2⟩
  · have hperm := (groupObjects_add_object g obj).map MoqObject.object_id
    rw [List.Perm.nodup_iff hperm]
    simp only [List.map_append, List.map_cons, List.map_nil]
    rw [List.nodup_append]
    refine ⟨hids, List.nodup_singleton _, ?_⟩
    intro x hx hx1
    simp only [List.mem_singleton] at hx1
    subst hx1
    rcases List.mem_map.mp hx with ⟨o, ho, hoid⟩
    rcases mem_groupObjects.mp ho with ⟨p, hp, hop⟩
    have := (hlane p hp o hop).2.2.1
    omega

/-- Members of a repeated `kdel` fold were members before. -/
theorem mem_foldl_kdel {κ β : Type} [DecidableEq κ] {p : κ × β}
    {rs : List κ} {l : List (κ × β)}
    (h : p ∈ rs.foldl (fun gs gid => kdel gid gs) l) : p ∈ l := by
  induction rs generalizing l with
  | nil => simpa using h
  | cons r rs ih =>
      simp only [List.foldl_cons] at h
      exact mem_kdel (ih h)

/-- Repeated `kdel` preserves key uniqueness. -/
theorem nodup_keys_foldl_kdel {κ β : Type} [DecidableEq κ] {rs : List κ}
    {l : List (κ × β)} (h : (l.map Prod.fst).Nodup) :
    (((rs.foldl (fun gs gid => kdel gid gs) l)).map Prod.fst).Nodup := by
  induction rs generalizing l with
  | nil => simpa using h
  | cons r rs ih =>
      simp only [List.foldl_cons]
      exact ih (nodup_keys_kdel h)

/-- Lookup after a repeated `kdel` on unique keys. -/
theorem kfind_foldl_kdel {κ β : Type} [DecidableEq κ] {k : κ} {rs : List κ}
    {l : List (κ × β)} (h : (l.map Prod.fst).Nodup) :
    kfind k (rs.foldl (fun gs gid => kdel gid gs) l) =
      if k ∈ rs then none else kfind k l := by
  induction rs generalizing l with
  | nil => simp
  | cons r rs ih =>
      simp only [List.foldl_cons]
      rw [ih (nodup_keys_kdel h)]
      by_cases hkr : k = r
      · subst hkr
        by_cases hk : k ∈ rs
        · simp [hk]
        · simp [hk, kfind_kdel_self h]
      · rw [kfind_kdel_ne hkr]
        simp [List.mem_cons, hkr]

/-- `cleanup_old_groups` preserves track well-formedness. -/
theorem wf_cleanup {m : Nat} {d : TrackData} (hwf : WFtrack d) :
    WFtrack (cleanup_old_groups m d) := by
  obtain ⟨hgnd, hond, hmem⟩ := hwf
  unfold cleanup_old_groups
  split
  · refine ⟨nodup_keys_foldl_kdel hgnd, nodup_keys_foldl_kdel hond, ?_⟩
    intro p hp
    have hpold := mem_foldl_kdel hp
    have hold := hmem p hpold
    have hnotin : p.1 ∉ (isort (fun a b => decide (a ≤ b)) (d.groups.map Prod.fst)).take
        (d.groups.length - m) := by
      intro hin
      have := mem_imp_kfind_ne_none hp
      rw [kfind_foldl_kdel hgnd, if_pos hin] at this
      exact this rfl
    refine ⟨hold.1, ?_, ?_⟩
    · rw [kfind_foldl_kdel hond, if_neg hnotin]
      exact hold.2.1
    · rw [kfind_foldl_kdel hond, if_neg hnotin]
      exact hold.2.2
  · exact ⟨hgnd, hond, hmem⟩

/-- The fresh empty track data is well-formed. -/
theorem wftrack_new : WFtrack TrackData.new := by
  refine ⟨by simp [TrackData.new], by simp [TrackData.new], ?_⟩
  intro p hp
  simp [TrackData.new] at hp

/-- A fresh empty group is well-formed under counter 0. -/
theorem wfgroup_new (gid now : Nat) : WFgroup gid (MoqGroup.new gid now) 0 := by
  refine ⟨rfl, by simp [MoqGroup.new], ?_, by simp [MoqGroup.new, groupObjects]⟩
  intro p hp
  simp [MoqGroup.new] at hp

/-- Replacing one track's data by well-formed data keeps the store
well-formed. -/
theorem wfstore_kset {st : TrackStore} {key : String} {d : TrackData}
    (hst : WFstore st) (hd : WFtrack d) :
    WFstore { st with tracks := kset key d st.tracks } := by
  refine ⟨nodup_keys_kset hst.1, ?_⟩
  intro p hp
  rcases mem_kset hst.1 hp with rfl | ⟨hp, _⟩
  · exact hd
  · exact hst.2 p hp

/-- The track-data update of `start_group` preserves well-formedness. -/
theorem wftrack_start {d : TrackData} (now : Nat) (hwf : WFtrack d) :
    WFtrack { d with
      next_group_id := d.next_group_id + 1
      groups := kset d.next_group_id (MoqGroup.new d.next_group_id now) d.groups
      next_object_id := kset d.next_group_id 0 d.next_object_id
      latest_group_id := some d.next_group_id } := by
  obtain ⟨hgnd, hond, hmem⟩ := hwf
  refine ⟨nodup_keys_kset hgnd, nodup_keys_kset hond, ?_⟩
  intro p hp
  rcases mem_kset hgnd hp with rfl | ⟨hp, hpk⟩
  · refine ⟨Nat.lt_succ_self _, ?_, ?_⟩
    · simp [kfind_kset_self]
    · simp only [kfind_kset_self, Option.getD_some]
      exact wfgroup_new _ now
  · have hold := hmem p hp
    refine ⟨Nat.lt_succ_of_lt hold.1, ?_, ?_⟩
    · simp only [kfind_kset_ne hpk]
      exact hold.2.1
    · simp only [kfind_kset_ne hpk]
      exact hold.2.2

/-- `get_or_create_track` preserves store well-formedness. -/
theorem wf_get_or_create {st : TrackStore} (track : FullTrackName)
    (hst : WFstore st) : WFstore (get_or_create_track st track) := by
  unfold get_or_create_track
  cases hfind : kfind track.to_path st.tracks with
  | some d => simpa [hfind] using hst
  | none =>
      simp only [hfind]
      exact wfstore_kset hst wftrack_new

/-- `start_group` preserves store well-formedness. -/
theorem wf_start_group {st : TrackStore} (track : FullTrackName) (now : Nat)
    (hst : WFstore st) : WFstore (start_group st track now).2 := by
  unfold start_group
  cases hfind : kfind track.to_path st.tracks with
  | none => simpa [hfind] using hst
  | some d =>
      simp only [hfind]
      have hd : WFtrack d := hst.2 _ (kfind_mem hfind)
      exact wfstore_kset hst (wf_cleanup (wftrack_start now hd))

/-- `add_object` preserves store well-formedness. -/
theorem wf_add_object {st : TrackStore} (track : FullTrackName)
    (gid sgid : Nat) (payload : List Nat) (now : Nat) (hst : WFstore st) :
    WFstore (add_object st track gid sgid payload now).2 := by
  unfold add_object
  cases hfind : kfind track.to_path st.tracks with
  | none => simpa [hfind] using hst
  | some d =>
      simp only [hfind]
      have hd : WFtrack d := hst.2 _ (kfind_mem hfind)
      obtain ⟨hgnd, hond, hmem⟩ := hd
      apply wfstore_kset hst
      cases hg : kfind gid d.groups with
      | none =>
          simp only [hg]
          refine ⟨hgnd, nodup_keys_kset hond, ?_⟩
          intro p hp
          have hpk : p.1 ≠ gid := by
            intro he
            exact (kfind_eq_none.mp hg) (he ▸ List.mem_map_of_mem Prod.fst hp)
          have hold := hmem p hp
          refine ⟨hold.1, ?_, ?_⟩
          · simp only [kfind_kset_ne hpk]
            exact hold.2.1
          · simp only [kfind_kset_ne hpk]
            exact hold.2.2
      | some g =>
          simp only [hg]
          have hgmem := kfind_mem hg
          have holdg := hmem _ hgmem
          refine ⟨nodup_keys_kset hgnd, nodup_keys_kset hond, ?_⟩
          intro p hp
          rcases mem_kset hgnd hp with rfl | ⟨hp, hpk⟩
          · refine ⟨holdg.1, ?_, ?_⟩
            · simp [kfind_kset_self]
            · simp only [kfind_kset_self, Option.getD_some]
              exact wfgroup_add_object holdg.2.2 sgid payload now
          · have hold := hmem p hp
            refine ⟨hold.1, ?_, ?_⟩
            · simp only [kfind_kset_ne hpk]
              exact hold.2.1
            · simp only [kfind_kset_ne hpk]
              exact hold.2.2

/-- The empty store is well-formed. -/
theorem wf_empty (m : Nat) : WFstore (TrackStore.empty m) := by
  constructor
  · simp [TrackStore.empty]
  · intro p hp
    simp [TrackStore.empty] at hp

/-- Every public mutating operation preserves store well-formedness. -/
theorem wf_applyOp {st : TrackStore} (op : StoreOp) (hst : WFstore st) :
    WFstore (applyOp st op) := by
  cases op with
  | create track => exact wf_get_or_create track hst
  | start track now => exact wf_start_group track now hst
  | add track gid sgid payload now => exact wf_add_object track gid sgid payload now hst

/-- Every operation trace preserves store well-formedness. -/
theorem wf_applyOps {st : TrackStore} (ops : List StoreOp) (hst : WFstore st) :
    WFstore (applyOps st ops) := by
  induction ops generalizing st with
  | nil => simpa [applyOps] using hst
  | cons op ops ih =>
      simp only [applyOps, List.foldl_cons]
      exact ih (wf_applyOp op hst)

/-! ## Helper lemmas: `get_objects` characterization -/

/-- In a well-formed track, a stored object carries its group's key as
`group_id` and no TTL. -/
theorem wftrack_obj {d : TrackData} (hwf : WFtrack d) :
    ∀ p ∈ d.groups, ∀ o ∈ groupObjects p.2,
      o.group_id = p.1 ∧ o.expires_at = none := by
  intro p hp o ho
  obtain ⟨-, -, hmem⟩ := hwf
  obtain ⟨-, -, hwfg⟩ := hmem p hp
  obtain ⟨-, -, hlane, -⟩ := hwfg
  obtain ⟨q, hq, hoq⟩ := mem_groupObjects.mp ho
  have h := hlane q hq o hoq
  exact ⟨h.1, h.2.2.2⟩

/-- Membership in a track's stored objects. -/
theorem mem_storedObjects {d : TrackData} {o : MoqObject} :
    o ∈ storedObjects d ↔ ∃ p ∈ d.groups, o ∈ groupObjects p.2 := by
  simp [storedObjects, List.mem_flatMap]

/-- Selecting the stored objects of one group by `group_id`, on unique
keys, yields exactly that group's objects. -/
theorem flatMap_filter_group_eq {gid : Nat} {g : MoqGroup}
    (gl : List (Nat × MoqGroup))
    (hnd : (gl.map Prod.fst).Nodup)
    (hmatch : ∀ p ∈ gl, ∀ o ∈ groupObjects p.2, o.group_id = p.1)
    (hg : kfind gid gl = some g) :
    (gl.flatMap (fun p => groupObjects p.2)).filter
        (fun o => decide (o.group_id = gid)) = groupObjects g := by
  induction gl with
  | nil => simp [kfind] at hg
  | cons p rest ih =>
      obtain ⟨k, gh⟩ := p
      simp only [List.map_cons, List.nodup_cons] at hnd
      simp only [List.flatMap_cons, List.filter_append]
      rw [kfind] at hg
      by_cases hk : k = gid
      · rw [if_pos hk] at hg
        have hgg : gh = g := by injection hg
        subst hk
        rw [← hgg]
        have h1 : (groupObjects gh).filter (fun o => decide (o.group_id = k)) =
            groupObjects gh :=
          List.filter_eq_self.mpr (fun o ho => by
            simp [hmatch (k, gh) (List.mem_cons_self _ _) o ho])
        have h2 : (rest.flatMap (fun p => groupObjects p.2)).filter
            (fun o => decide (o.group_id = k)) = [] :=
          List.filter_eq_nil_iff.mpr (fun o ho => by
            obtain ⟨q, hq, hoq⟩ := List.mem_flatMap.mp ho
            have hofst := hmatch q (List.mem_cons_of_mem _ hq) o hoq
            have hqk : q.1 ≠ k :=
              fun he => hnd.1 (he ▸ List.mem_map_of_mem Prod.fst hq)
            simp [hofst, hqk])
        rw [h1, h2, List.append_nil]
      · rw [if_neg hk] at hg
        have h1 : (groupObjects gh).filter (fun o => decide (o.group_id = gid)) =
            [] :=
          List.filter_eq_nil_iff.mpr (fun o ho => by
            have hofst := hmatch (k, gh) (List.mem_cons_self _ _) o ho
            simp [hofst, hk])
        rw [h1, List.nil_append]
        exact ih hnd.2 (fun q hq => hmatch q (List.mem_cons_of_mem _ hq)) hg

/-- `LatestGroup` selects exactly the stored objects of the group recorded
in `latest_group_id` (possibly none at all). -/
theorem filterObjects_latestGroup {d : TrackData} (hwf : WFtrack d) :
    filterObjects d FilterType.LatestGroup =
      (storedObjects d).filter
        (fun o => decide (d.latest_group_id = some o.group_id)) := by
  have hmatch : ∀ p ∈ d.groups, ∀ o ∈ groupObjects p.2, o.group_id = p.1 :=
    fun p hp o ho => (wftrack_obj hwf p hp o ho).1
  obtain ⟨hnd, -, -⟩ := hwf
  cases hl : d.latest_group_id with
  | none =>
      simp only [filterObjects, hl]
      symm
      exact List.filter_eq_nil_iff.mpr (fun o ho => by simp)
  | some gid =>
      cases hg : kfind gid d.groups with
      | some g =>
          simp only [filterObjects, hl, hg]
          have hone := flatMap_filter_group_eq d.groups hnd hmatch hg
          rw [storedObjects, ← hone]
          apply List.filter_congr
          intro o ho
          simp [eq_comm]
      | none =>
          simp only [filterObjects, hl, hg]
          symm
          apply List.filter_eq_nil_iff.mpr
          intro o ho
          obtain ⟨q, hq, hoq⟩ := List.mem_flatMap.mp ho
          have hofst := hmatch q hq o hoq
          simp only [hl, Option.some.injEq, decide_eq_true_eq]
          intro he
          exact (kfind_eq_none.mp hg)
            (by rw [he, hofst]; exact List.mem_map_of_mem Prod.fst hq)

/-- `LatestObject` selects exactly the stored objects matching both the
recorded latest group id and latest object id. -/
theorem filterObjects_latestObject {d : TrackData} (hwf : WFtrack d) :
    filterObjects d FilterType.LatestObject =
      (storedObjects d).filter
        (fun o => decide (d.latest_group_id = some o.group_id) &&
          decide (d.latest_object_id = some o.object_id)) := by
  have hmatch : ∀ p ∈ d.groups, ∀ o ∈ groupObjects p.2, o.group_id = p.1 :=
    fun p hp o ho => (wftrack_obj hwf p hp o ho).1
  obtain ⟨hnd, -, -⟩ := hwf
  cases hl : d.latest_group_id with
  | none =>
      simp only [filterObjects, hl]
      symm
      exact List.filter_eq_nil_iff.mpr (fun o ho => by simp)
  | some gid =>
      cases hlo : d.latest_object_id with
      | none =>
          simp only [filterObjects, hl, hlo]
          symm
          exact List.filter_eq_nil_iff.mpr (fun o ho => by simp)
      | some oid =>
          have hswap : (storedObjects d).filter
              (fun o => decide (some gid = some o.group_id) &&
                decide (some oid = some o.object_id)) =
              ((storedObjects d).filter
                (fun o => decide (o.group_id = gid))).filter
                (fun o => decide (o.object_id = oid)) := by
            rw [List.filter_filter]
            apply List.filter_congr
            intro o hmem
            simp [eq_comm, Bool.and_comm]
          cases hg : kfind gid d.groups with
          | some g =>
              simp only [filterObjects, hl, hlo, hg]
              rw [hswap, storedObjects,
                flatMap_filter_group_eq d.groups hnd hmatch hg]
          | none =>
              simp only [filterObjects, hl, hlo, hg]
              rw [hswap]
              have hnil : (storedObjects d).filter
                  (fun o => decide (o.group_id = gid)) = [] := by
                apply List.filter_eq_nil_iff.mpr
                intro o hos
                obtain ⟨q, hq, hoq⟩ := List.mem_flatMap.mp hos
                have hofst := hmatch q hq o hoq
                simp only [decide_eq_true_eq]
                intro he
                exact (kfind_eq_none.mp hg)
                  (by rw [← he, hofst]; exact List.mem_map_of_mem Prod.fst hq)
              rw [hnil]
              simp

/-- Pointwise: inside an in-range group, the per-object range test of the
code agrees with the claim-side range predicate. -/
theorem inRangeAsc_in {sg so eg : Nat} {eo : Option Nat} {o : MoqObject}
    {k : Nat} (hgid : o.group_id = k) (h1 : sg ≤ k) (h2 : k ≤ eg) :
    ((decide (sg < k) || decide (so ≤ o.object_id)) &&
        (decide (k < eg) ||
          (match eo with
           | none => true
           | some e => decide (o.object_id ≤ e)))) =
      inRangeAsc sg so eg eo o := by
  subst hgid
  rw [Bool.eq_iff_iff]
  rcases eo with _ | e <;>
    simp only [inRangeAsc, Bool.or_eq_true, Bool.and_eq_true, Bool.or_true,
      Bool.and_true, decide_eq_true_eq] <;>
    omega

/-- Pointwise: an object of an out-of-range group fails the claim-side
range predicate. -/
theorem inRangeAsc_out {sg so eg : Nat} {eo : Option Nat} {o : MoqObject}
    {k : Nat} (hgid : o.group_id = k) (hc : ¬(sg ≤ k ∧ k ≤ eg)) :
    inRangeAsc sg so eg eo o = false := by
  subst hgid
  rw [Bool.eq_false_iff]
  intro htrue
  rcases eo with _ | e <;>
    simp only [inRangeAsc, Bool.or_eq_true, Bool.and_eq_true, Bool.or_true,
      Bool.and_true, decide_eq_true_eq] at htrue <;>
    omega

/-- The `AbsoluteRange` selection equals filtering all stored objects by
the claim-side range predicate, for key-consistent group lists. -/
theorem range_flatMap_eq (sg so eg : Nat) (eo : Option Nat)
    (gl : List (Nat × MoqGroup))
    (hmatch : ∀ p ∈ gl, ∀ o ∈ groupObjects p.2, o.group_id = p.1) :
    (gl.filter (fun p => decide (sg ≤ p.1) && decide (p.1 ≤ eg))).flatMap
        (fun p => (groupObjects p.2).filter (fun o =>
          (decide (sg < p.1) || decide (so ≤ o.object_id)) &&
            (decide (p.1 < eg) ||
              (match eo with
               | none => true
               | some e => decide (o.object_id ≤ e))))) =
      (gl.flatMap (fun p => groupObjects p.2)).filter (inRangeAsc sg so eg eo) := by
  induction gl with
  | nil => simp
  | cons p rest ih =>
      obtain ⟨k, g⟩ := p
      have hmatchrest : ∀ q ∈ rest, ∀ o ∈ groupObjects q.2, o.group_id = q.1 :=
        fun q hq => hmatch q (List.mem_cons_of_mem _ hq)
      have hmatchhead : ∀ o ∈ groupObjects g, o.group_id = k :=
        hmatch (k, g) (List.mem_cons_self _ _)
      by_cases hc : sg ≤ k ∧ k ≤ eg
      · rw [List.filter_cons_of_pos (by simpa using hc), List.flatMap_cons,
          List.flatMap_cons, List.filter_append, ih hmatchrest]
        congr 1
        exact List.filter_congr
          (fun o ho => inRangeAsc_in (hmatchhead o ho) hc.1 hc.2)
      · rw [List.filter_cons_of_neg (by simpa using hc), List.flatMap_cons,
          List.filter_append, ih hmatchrest]
        have h0 : (groupObjects g).filter (inRangeAsc sg so eg eo) = [] :=
          List.filter_eq_nil_iff.mpr (fun o ho => by
            rw [inRangeAsc_out (hmatchhead o ho) hc]
            simp)
        rw [h0, List.nil_append]

/-- `AbsoluteRange` selection on a well-formed track. -/
theorem filterObjects_range {d : TrackData} (hwf : WFtrack d)
    (sg so eg : Nat) (eo : Option Nat) :
    filterObjects d (FilterType.AbsoluteRange sg so eg eo) =
      (storedObjects d).filter (inRangeAsc sg so eg eo) := by
  have hmatch : ∀ p ∈ d.groups, ∀ o ∈ groupObjects p.2, o.group_id = p.1 :=
    fun p hp o ho => (wftrack_obj hwf p hp o ho).1
  simpa [filterObjects, storedObjects] using
    range_flatMap_eq sg so eg eo d.groups hmatch

/-- Every object any filter selects is stored in some retained group. -/
theorem filterObjects_subset {d : TrackData} (f : FilterType) :
    ∀ o ∈ filterObjects d f, o ∈ storedObjects d := by
  intro o ho
  cases f with
  | LatestGroup =>
      rcases hl : d.latest_group_id with _ | gid
      · simp [filterObjects, hl] at ho
      · rcases hg : kfind gid d.groups with _ | g
        · simp [filterObjects, hl, hg] at ho
        · simp only [filterObjects, hl, hg] at ho
          exact mem_storedObjects.mpr ⟨(gid, g), kfind_mem hg, ho⟩
  | LatestObject =>
      rcases hl : d.latest_group_id with _ | gid
      · simp [filterObjects, hl] at ho
      · rcases hlo : d.latest_object_id with _ | oid
        · simp [filterObjects, hl, hlo] at ho
        · rcases hg : kfind gid d.groups with _ | g
          · simp [filterObjects, hl, hlo, hg] at ho
          · simp only [filterObjects, hl, hlo, hg] at ho
            exact mem_storedObjects.mpr
              ⟨(gid, g), kfind_mem hg, (List.mem_filter.mp ho).1⟩
  | NextGroup => simp [filterObjects] at ho
  | AbsoluteStart sg so =>
      rw [filterObjects] at ho
      obtain ⟨p, hp, hop⟩ := List.mem_flatMap.mp ho
      exact mem_storedObjects.mpr
        ⟨p, (List.mem_filter.mp hp).1, (List.mem_filter.mp hop).1⟩
  | AbsoluteRange sg so eg eo =>
      rw [filterObjects] at ho
      obtain ⟨p, hp, hop⟩ := List.mem_flatMap.mp ho
      exact mem_storedObjects.mpr
        ⟨p, (List.mem_filter.mp hp).1, (List.mem_filter.mp hop).1⟩

/-- Objects stored by the public operations never expire (their
`expires_at` is `None`). -/
theorem stored_unexpired {d : TrackData} (hwf : WFtrack d) {o : MoqObject}
    (ho : o ∈ storedObjects d) (now : Nat) : o.is_expired now = false := by
  obtain ⟨q, hq, hoq⟩ := List.mem_flatMap.mp ho
  have h := (wftrack_obj hwf q hq o hoq).2
  simp [MoqObject.is_expired, h]

/-- On a well-formed track with ascending order, `get_objects` is the
insertion sort of the filter's selection (the expiry pass drops nothing). -/
theorem get_objects_eq_isort {st : TrackStore} {params : SubscriptionParams}
    {now : Nat} {d : TrackData}
    (hfind : kfind params.track.to_path st.tracks = some d) (hwf : WFtrack d)
    (hasc : params.group_order = GroupOrder.Ascending) :
    get_objects st params now = isort objLeAsc (filterObjects d params.filter) := by
  rw [get_objects, hfind, hasc]
  apply List.filter_eq_self.mpr
  intro o ho
  have hos : o ∈ storedObjects d := filterObjects_subset _ o (mem_isort.mp ho)
  simp [stored_unexpired hwf hos now]

/-- `get_objects` on a missing track is empty. -/
theorem get_objects_missing {st : TrackStore} {params : SubscriptionParams}
    {now : Nat} (hfind : kfind params.track.to_path st.tracks = none) :
    get_objects st params now = [] := by
  rw [get_objects, hfind]

/-- The ascending object order is total. -/
theorem objLeAsc_total (a b : MoqObject) :
    objLeAsc a b = true ∨ objLeAsc b a = true := by
  simp only [objLeAsc, Bool.or_eq_true, Bool.and_eq_true, decide_eq_true_eq]
  omega

/-- The ascending object order is transitive. -/
theorem objLeAsc_trans (a b c : MoqObject) (h1 : objLeAsc a b = true)
    (h2 : objLeAsc b c = true) : objLeAsc a c = true := by
  simp only [objLeAsc, Bool.or_eq_true, Bool.and_eq_true, decide_eq_true_eq] at *
  omega

/-- Filtering a list with injective key projection for one key value keeps
at most one element. -/
theorem filter_key_length_le_one {α : Type} (f : α → Nat) (c : Nat)
    {l : List α} (hnd : (l.map f).Nodup) :
    (l.filter (fun o => decide (f o = c))).length ≤ 1 := by
  induction l with
  | nil => simp
  | cons a rest ih =>
      simp only [List.map_cons, List.nodup_cons] at hnd
      by_cases ha : f a = c
      · rw [List.filter_cons_of_pos (by simp [ha])]
        have hnil : rest.filter (fun o => decide (f o = c)) = [] :=
          List.filter_eq_nil_iff.mpr (fun o ho => by
            simp only [decide_eq_true_eq]
            intro he
            exact hnd.1 (by rw [ha, ← he]; exact List.mem_map_of_mem f ho))
        simp [hnil]
      · rw [List.filter_cons_of_neg (by simp [ha])]
        exact ih hnd.2

/-! ## Claim theorems: track store filters -/

/-- C1 counterexample: in `emptyLatestStore` the numerically highest group
holding at least one object is group 0 (it holds objects (0,0) and (0,1)),
yet `get_objects` with `LatestGroup` returns nothing, because the most
recently started group (id 1) is empty and the code never falls back. -/
theorem mms_C1_counterexample :
    get_objects emptyLatestStore (mkParams FilterType.LatestGroup) 0 = [] ∧
    (trackObjects emptyLatestStore tTrack).map
        (fun o => (o.group_id, o.object_id)) = [(0, 0), (0, 1)] := by
  constructor <;> rfl

/-- C1 (amended): for every well-formed store, `get_objects` with filter
`LatestGroup` under `Ascending` order returns exactly the retained objects
of the group recorded in `latest_group_id` — the most recently started
group — sorted ascending by `(group_id, object_id)`; when that group is
empty or evicted the result is empty even if earlier groups hold
objects. -/
theorem mms_C1 (st : TrackStore) (params : SubscriptionParams) (now : Nat)
    (hwf : WFstore st) (hfilter : params.filter = FilterType.LatestGroup)
    (hord : params.group_order = GroupOrder.Ascending) :
    (get_objects st params now).Perm
        ((trackObjects st params.track).filter
          (fun o => decide (trackLatestGroup st params.track = some o.group_id))) ∧
    (get_objects st params now).Pairwise (fun a b => objLeAsc a b = true) := by
  cases hfind : kfind params.track.to_path st.tracks with
  | none =>
      rw [get_objects_missing hfind]
      constructor
      · simp [trackObjects, hfind]
      · simp
  | some d =>
      have hwfd : WFtrack d := hwf.2 _ (kfind_mem hfind)
      rw [get_objects_eq_isort hfind hwfd hord, hfilter]
      constructor
      · rw [filterObjects_latestGroup hwfd]
        have htr : trackObjects st params.track = storedObjects d := by
          simp [trackObjects, hfind]
        have hlg : trackLatestGroup st params.track = d.latest_group_id := by
          simp [trackLatestGroup, hfind]
        rw [htr, hlg]
        exact perm_isort _ _
      · exact pairwise_isort objLeAsc_total objLeAsc_trans _

/-- C1 witness: the amended statement instantiated at the concrete store
with an empty latest group. -/
theorem mms_C1_witness :
    WFstore emptyLatestStore ∧
    ((get_objects emptyLatestStore (mkParams FilterType.LatestGroup) 0).Perm
        ((trackObjects emptyLatestStore tTrack).filter
          (fun o => decide (trackLatestGroup emptyLatestStore tTrack =
            some o.group_id))) ∧
      (get_objects emptyLatestStore (mkParams FilterType.LatestGroup) 0).Pairwise
        (fun a b => objLeAsc a b = true)) :=
  ⟨by decide,
    mms_C1 emptyLatestStore (mkParams FilterType.LatestGroup) 0 (by decide) rfl rfl⟩

/-- C2: on every well-formed store, `get_objects` with
`AbsoluteRange(g₀,o₀,g₁,o₁?)` under `Ascending` order returns exactly the
retained objects `(g, o)` with `(g > g₀ ∨ (g = g₀ ∧ o ≥ o₀))` and
`(g < g₁ ∨ (g = g₁ ∧ (o₁ = None ∨ o ≤ o₁)))`, sorted ascending by
`(group_id, object_id)`; concretely, on groups 0–9 of 10 objects each,
`AbsoluteRange(3,5,5,None)` yields group 3 objects 5–9, all of group 4 and
all of group 5, ascending. -/
theorem mms_C2 :
    (∀ (st : TrackStore) (params : SubscriptionParams) (now sg so eg : Nat)
        (eo : Option Nat), WFstore st →
        params.filter = FilterType.AbsoluteRange sg so eg eo →
        params.group_order = GroupOrder.Ascending →
        (get_objects st params now).Perm
            ((trackObjects st params.track).filter (inRangeAsc sg so eg eo)) ∧
        (get_objects st params now).Pairwise (fun a b => objLeAsc a b = true)) ∧
    (get_objects s3Store s3Params 0).map (fun o => (o.group_id, o.object_id)) =
      s3Expected := by
  constructor
  · intro st params now sg so eg eo hwf hfilter hord
    cases hfind : kfind params.track.to_path st.tracks with
    | none =>
        rw [get_objects_missing hfind]
        constructor
        · simp [trackObjects, hfind]
        · simp
    | some d =>
        have hwfd : WFtrack d := hwf.2 _ (kfind_mem hfind)
        rw [get_objects_eq_isort hfind hwfd hord, hfilter]
        refine ⟨?_, pairwise_isort objLeAsc_total objLeAsc_trans _⟩
        rw [filterObjects_range hwfd]
        have htr : trackObjects st params.track = storedObjects d := by
          simp [trackObjects, hfind]
        rw [htr]
        exact perm_isort _ _
  · rfl

/-- C2 witness: the range statement instantiated at the concrete S3
store. -/
theorem mms_C2_witness :
    WFstore s3Store ∧
    ((get_objects s3Store s3Params 0).Perm
        ((trackObjects s3Store tTrack).filter (inRangeAsc 3 5 5 none)) ∧
      (get_objects s3Store s3Params 0).Pairwise
        (fun a b => objLeAsc a b = true)) :=
  ⟨by decide, mms_C2.1 s3Store s3Params 0 3 5 5 none (by decide) rfl rfl⟩

/-- C3 counterexample: `emptyLatestStore` holds two objects, with highest
pair (0, 1), yet `get_objects` with `LatestObject` returns no object at
all: the most recently started group (id 1) is empty, and the code only
looks for `latest_object_id` inside that group. -/
theorem mms_C3_counterexample :
    get_objects emptyLatestStore (mkParams FilterType.LatestObject) 0 = [] ∧
    (trackObjects emptyLatestStore tTrack).map
        (fun o => (o.group_id, o.object_id)) = [(0, 0), (0, 1)] := by
  constructor <;> rfl

/-- C3 (amended): for every well-formed store, `get_objects` with
`LatestObject` returns exactly the retained objects of the most recently
started group whose `object_id` equals the most recently assigned object
id — at most one object, possibly none, and not necessarily the object
with the globally highest `(group_id, object_id)` pair. -/
theorem mms_C3 (st : TrackStore) (params : SubscriptionParams) (now : Nat)
    (hwf : WFstore st) (hfilter : params.filter = FilterType.LatestObject)
    (hord : params.group_order = GroupOrder.Ascending) :
    (get_objects st params now).Perm
        ((trackObjects st params.track).filter
          (fun o => decide (trackLatestGroup st params.track = some o.group_id) &&
            decide (trackLatestObject st params.track = some o.object_id))) ∧
    (get_objects st params now).length ≤ 1 := by
  cases hfind : kfind params.track.to_path st.tracks with
  | none =>
      rw [get_objects_missing hfind]
      constructor
      · simp [trackObjects, hfind]
      · simp
  | some d =>
      have hwfd : WFtrack d := hwf.2 _ (kfind_mem hfind)
      rw [get_objects_eq_isort hfind hwfd hord, hfilter]
      constructor
      · rw [filterObjects_latestObject hwfd]
        have htr : trackObjects st params.track = storedObjects d := by
          simp [trackObjects, hfind]
        have hlg : trackLatestGroup st params.track = d.latest_group_id := by
          simp [trackLatestGroup, hfind]
        have hlo : trackLatestObject st params.track = d.latest_object_id := by
          simp [trackLatestObject, hfind]
        rw [htr, hlg, hlo]
        exact perm_isort _ _
      · rw [(perm_isort objLeAsc (filterObjects d FilterType.LatestObject)).length_eq]
        cases hl : d.latest_group_id with
        | none => simp [filterObjects, hl]
        | some gid =>
            cases hlot : d.latest_object_id with
            | none => simp [filterObjects, hl, hlot]
            | some oid =>
                cases hg : kfind gid d.groups with
                | none => simp [filterObjects, hl, hlot, hg]
                | some g =>
                    simp only [filterObjects, hl, hlot, hg]
                    obtain ⟨-, -, hmem⟩ := hwfd
                    obtain ⟨-, -, hwfg⟩ := hmem _ (kfind_mem hg)
                    obtain ⟨-, -, -, hids⟩ := hwfg
                    exact filter_key_length_le_one MoqObject.object_id oid hids

/-- C3 witness: the amended statement instantiated at the concrete store
whose most recent group is empty. -/
theorem mms_C3_witness :
    WFstore emptyLatestStore ∧
    ((get_objects emptyLatestStore (mkParams FilterType.LatestObject) 0).Perm
        ((trackObjects emptyLatestStore tTrack).filter
          (fun o => decide (trackLatestGroup emptyLatestStore tTrack =
              some o.group_id) &&
            decide (trackLatestObject emptyLatestStore tTrack =
              some o.object_id))) ∧
      (get_objects emptyLatestStore (mkParams FilterType.LatestObject) 0).length ≤ 1) :=
  ⟨by decide,
    mms_C3 emptyLatestStore (mkParams FilterType.LatestObject) 0 (by decide) rfl rfl⟩

/-! ## Claim theorems: `add_object` error handling -/

/-- C5 counterexample: in `completeGroupStore` group 0 is marked complete
and holds one object; `add_object` on it nevertheless returns `Some` and
the group's object set grows to two objects. -/
theorem mms_C5_counterexample :
    ((kfind 0 ((kfind tTrack.to_path completeGroupStore.tracks).getD
        TrackData.new).groups).getD (MoqGroup.new 0 0)).is_complete = true ∧
    (add_object completeGroupStore tTrack 0 0 [7] 1).1.isSome = true ∧
    (trackObjects (add_object completeGroupStore tTrack 0 0 [7] 1).2
        tTrack).length = 2 := by
  exact ⟨rfl, rfl, rfl⟩

/-- C5 (amended): `add_object` returns `None` exactly when the track does
not exist; group completeness is never consulted.  On an existing track it
returns `Some` of a fresh object carrying the group's next object id. -/
theorem mms_C5 (st : TrackStore) (track : FullTrackName)
    (group_id subgroup_id : Nat) (payload : List Nat) (now : Nat) :
    ((add_object st track group_id subgroup_id payload now).1 = none ↔
      kfind track.to_path st.tracks = none) ∧
    (∀ d, kfind track.to_path st.tracks = some d →
      (add_object st track group_id subgroup_id payload now).1 =
        some (MoqObject.new group_id subgroup_id
          ((kfind group_id d.next_object_id).getD 0) payload now)) := by
  cases hfind : kfind track.to_path st.tracks with
  | none =>
      constructor
      · simp [add_object, hfind]
      · intro d hd
        simp at hd
  | some d =>
      constructor
      · simp [add_object, hfind]
      · intro d' hd'
        injection hd' with h
        subst h
        simp [add_object, hfind]

/-- C5 witness: on the concrete store with a complete group, `add_object`
returns the object with the next id 1. -/
theorem mms_C5_witness :
    (add_object completeGroupStore tTrack 0 0 [7] 1).1 =
      some (MoqObject.new 0 0 1 [7] 1) := by
  exact (mms_C5 completeGroupStore tTrack 0 0 [7] 1).2 _ rfl

/-! ## Claim theorems: group id monotonicity -/

/-- Members of an insert, without a uniqueness assumption. -/
theorem mem_kset_weak {κ β : Type} [DecidableEq κ] {p : κ × β} {k : κ} {v : β}
    {l : List (κ × β)} (h : p ∈ kset k v l) : p = (k, v) ∨ p ∈ l := by
  induction l with
  | nil => simp [kset] at h; simp [h]
  | cons q rest ih =>
      obtain ⟨k', v'⟩ := q
      by_cases hk : k' = k
      · subst hk
        simp only [kset, if_pos rfl] at h
        rcases List.mem_cons.mp h with h | h
        · exact Or.inl h
        · exact Or.inr (List.mem_cons_of_mem _ h)
      · simp only [kset, if_neg hk] at h
        rcases List.mem_cons.mp h with h | h
        · exact Or.inr (h ▸ List.mem_cons_self _ _)
        · rcases ih h with h | h
          · exact Or.inl h
          · exact Or.inr (List.mem_cons_of_mem _ h)

/-- Eviction does not touch the group-id counter. -/
theorem cleanup_next_group_id (m : Nat) (d : TrackData) :
    (cleanup_old_groups m d).next_group_id = d.next_group_id := by
  unfold cleanup_old_groups
  split <;> rfl

/-- `start_group` on an existing track returns `next_group_id` and bumps
it by one. -/
theorem start_group_ret {st : TrackStore} {track : FullTrackName}
    {d : TrackData} (hfind : kfind track.to_path st.tracks = some d)
    (now : Nat) :
    ∃ d', kfind track.to_path (start_group st track now).2.tracks = some d' ∧
      d'.next_group_id = d.next_group_id + 1 ∧
      (start_group st track now).1 = d.next_group_id := by
  rw [start_group, hfind]
  refine ⟨_, kfind_kset_self _ _ _, ?_, rfl⟩
  rw [cleanup_next_group_id]

/-- One store operation keeps a track alive and never decreases its
`next_group_id`. -/
theorem next_group_mono_applyOp {st : TrackStore} (op : StoreOp)
    {key : FullTrackName} {d : TrackData}
    (hfind : kfind key.to_path st.tracks = some d) :
    ∃ d', kfind key.to_path (applyOp st op).tracks = some d' ∧
      d.next_group_id ≤ d'.next_group_id := by
  cases op with
  | create t =>
      rw [applyOp, get_or_create_track]
      cases hf : kfind t.to_path st.tracks with
      | some d0 => exact ⟨d, hfind, Nat.le_refl _⟩
      | none =>
          by_cases heq : t.to_path = key.to_path
          · rw [heq] at hf
            rw [hfind] at hf
            cases hf
          · rw [kfind_kset_ne (fun he => heq he.symm)]
            exact ⟨d, hfind, Nat.le_refl _⟩
  | start t now =>
      rw [applyOp, start_group]
      cases hf : kfind t.to_path st.tracks with
      | none => exact ⟨d, hfind, Nat.le_refl _⟩
      | some d0 =>
          by_cases heq : t.to_path = key.to_path
          · rw [heq] at hf
            rw [hfind] at hf
            injection hf with hf
            subst hf
            rw [heq]
            refine ⟨_, kfind_kset_self _ _ _, ?_⟩
            rw [cleanup_next_group_id]
            exact Nat.le_succ _
          · rw [kfind_kset_ne (fun he => heq he.symm)]
            exact ⟨d, hfind, Nat.le_refl _⟩
  | add t gid sgid payload now =>
      rw [applyOp, add_object]
      cases hf : kfind t.to_path st.tracks with
      | none => exact ⟨d, hfind, Nat.le_refl _⟩
      | some d0 =>
          by_cases heq : t.to_path = key.to_path
          · rw [heq] at hf
            rw [hfind] at hf
            injection hf with hf
            subst hf
            rw [heq]
            exact ⟨_, kfind_kset_self _ _ _, Nat.le_refl _⟩
          · rw [kfind_kset_ne (fun he => heq he.symm)]
            exact ⟨d, hfind, Nat.le_refl _⟩

/-- A trace of operations keeps a track alive and never decreases its
`next_group_id`. -/
theorem next_group_mono_applyOps {st : TrackStore} (ops : List StoreOp)
    {key : FullTrackName} {d : TrackData}
    (hfind : kfind key.to_path st.tracks = some d) :
    ∃ d', kfind key.to_path (applyOps st ops).tracks = some d' ∧
      d.next_group_id ≤ d'.next_group_id := by
  induction ops generalizing st d with
  | nil => exact ⟨d, hfind, Nat.le_refl _⟩
  | cons op ops ih =>
      obtain ⟨d1, hd1, hle1⟩ := next_group_mono_applyOp op hfind
      obtain ⟨d2, hd2, hle2⟩ := ih hd1
      exact ⟨d2, hd2, Nat.le_trans hle1 hle2⟩

/-- C4 counterexample: on a track that does not exist, `start_group`
returns 0 without creating the track; creating the track in between, the
second call returns 0 again — not strictly greater. -/
theorem mms_C4_counterexample :
    (start_group (TrackStore.empty 10) tTrack 0).1 = 0 ∧
    (start_group (get_or_create_track
        (start_group (TrackStore.empty 10) tTrack 0).2 tTrack) tTrack 1).1 = 0 := by
  constructor <;> rfl

/-- C4 (amended): for a track that exists in the store at the first call,
any two `start_group` calls separated by an arbitrary interleaving of
store operations return strictly increasing group ids. -/
theorem mms_C4 (st : TrackStore) (track : FullTrackName) (d : TrackData)
    (now1 now2 : Nat) (ops : List StoreOp)
    (hfind : kfind track.to_path st.tracks = some d) :
    (start_group st track now1).1 <
      (start_group (applyOps (start_group st track now1).2 ops) track now2).1 := by
  obtain ⟨d1, hd1, hnext1, hret1⟩ := start_group_ret hfind now1
  obtain ⟨d2, hd2, hmono⟩ := next_group_mono_applyOps ops hd1
  obtain ⟨d3, hd3, hnext3, hret3⟩ := start_group_ret hd2 now2
  rw [hret1, hret3]
  omega

/-- C4 witness: two calls around an interleaved `add_object` on the
concrete store. -/
theorem mms_C4_witness :
    (start_group emptyLatestStore tTrack 2).1 <
      (start_group (applyOps (start_group emptyLatestStore tTrack 2).2
        [StoreOp.add tTrack 0 0 [] 3]) tTrack 4).1 := by
  exact mms_C4 emptyLatestStore tTrack _ 2 4 [StoreOp.add tTrack 0 0 [] 3] rfl

/-! ## Helper lemmas: priority scheduler -/

/-- `insert` at the position found by `position` is `insertBefore`. -/
theorem insertIdx_findIdx {α : Type} (p : α → Bool) (a : α) (l : List α) :
    l.insertIdx (l.findIdx p) a = insertBefore p a l := by
  induction l with
  | nil => rfl
  | cons b rest ih =>
      rw [List.findIdx_cons]
      by_cases h : p b = true
      · simp [h, insertBefore, List.insertIdx_zero]
      · rw [Bool.not_eq_true] at h
        simp only [h, cond_false, insertBefore, Bool.false_eq_true, if_false,
          List.insertIdx_succ_cons, ih]

/-- Membership after `insertBefore`. -/
theorem mem_insertBefore {α : Type} {p : α → Bool} {a x : α} {l : List α} :
    x ∈ insertBefore p a l ↔ x = a ∨ x ∈ l := by
  induction l with
  | nil => simp [insertBefore]
  | cons b rest ih =>
      by_cases h : p b
      · simp only [insertBefore, h, if_true]
        simp [List.mem_cons]
      · simp only [insertBefore, h, Bool.false_eq_true, if_false]
        simp only [List.mem_cons, ih]
        tauto

/-- A sublist of an invariant-satisfying queue satisfies the invariant. -/
theorem schedinv_sublist {t : Nat} {q q' : List PendingDelivery}
    (hsub : q'.Sublist q) (hInv : SchedInv t q) : SchedInv t q' :=
  ⟨List.Pairwise.sublist hsub hInv.1,
    fun e he => hInv.2 e (hsub.subset he)⟩

/-- Inserting a fresh entry with effective priority `sp` and a fresh
timestamp before the first strictly-greater entry keeps the queue
sorted. -/
theorem pairwise_insertBefore_sched {q : List PendingDelivery}
    {t sp now : Nat}
    (hpair : q.Pairwise SchedRel) (htime : ∀ e ∈ q, e.queued_at < t)
    (hle : t ≤ now) (dnew : PendingDelivery)
    (heff : dnew.effective_priority = sp) (hqa : dnew.queued_at = now) :
    (insertBefore (fun e => decide (sp < e.effective_priority)) dnew
      q).Pairwise SchedRel := by
  induction q with
  | nil => simp [insertBefore]
  | cons b rest ih =>
      obtain ⟨hb, hrest⟩ := List.pairwise_cons.mp hpair
      by_cases h : sp < b.effective_priority
      · simp only [insertBefore, decide_eq_true h, if_true]
        refine List.pairwise_cons.mpr ⟨?_, hpair⟩
        intro x hx
        rcases List.mem_cons.mp hx with rfl | hx
        · unfold SchedRel
          omega
        · have hbx := hb x hx
          unfold SchedRel at *
          omega
      · have hdec : decide (sp < b.effective_priority) = false := by
          simpa using h
        simp only [insertBefore, hdec, Bool.false_eq_true, if_false]
        refine List.pairwise_cons.mpr
          ⟨?_, ih hrest (fun e he => htime e (List.mem_cons_of_mem _ he))⟩
        intro x hx
        rcases mem_insertBefore.mp hx with rfl | hx
        · have hbt := htime b (List.mem_cons_self _ _)
          unfold SchedRel
          omega
        · exact hb x hx

/-- `enqueue` preserves the queue invariant, advancing the clock bound. -/
theorem schedinv_enqueue {maxQ t : Nat} {q : List PendingDelivery}
    (hInv : SchedInv t q) {now : Nat} (hle : t ≤ now) (o : MoqObject)
    (sp : Nat) : SchedInv (now + 1) (enqueue maxQ q o sp now) := by
  obtain ⟨hpair, htime⟩ := hInv
  simp only [enqueue]
  rw [insertIdx_findIdx]
  have hpair1 := pairwise_insertBefore_sched hpair htime hle
    ({ object := o, subscriber_priority := sp,
       effective_priority := sp, queued_at := now }) rfl rfl
  have htime1 : ∀ e ∈ insertBefore
      (fun d => decide (sp < d.effective_priority))
      ({ object := o, subscriber_priority := sp, effective_priority := sp,
         queued_at := now } : PendingDelivery) q, e.queued_at < now + 1 := by
    intro e he
    rcases mem_insertBefore.mp he with rfl | he
    · exact Nat.lt_succ_self now
    · exact Nat.lt_succ_of_lt (Nat.lt_of_lt_of_le (htime e he) hle)
  split
  · exact schedinv_sublist (List.take_sublist _ _) ⟨hpair1, htime1⟩
  · exact ⟨hpair1, htime1⟩

/-- `dequeue` preserves the queue invariant. -/
theorem schedinv_dequeue {t : Nat} {q : List PendingDelivery}
    (hInv : SchedInv t q) (now : Nat) : SchedInv t (dequeue q now).2 := by
  obtain ⟨hpair, htime⟩ := hInv
  cases hq : q.filter (fun d => ! d.object.is_expired now) with
  | nil =>
      simp only [dequeue, hq]
      exact ⟨List.Pairwise.nil, by simp⟩
  | cons e rest =>
      simp only [dequeue, hq]
      have hsub : (e :: rest).Sublist q := hq ▸ List.filter_sublist q
      have hp2 : (e :: rest).Pairwise SchedRel := List.Pairwise.sublist hsub hpair
      refine ⟨(List.pairwise_cons.mp hp2).2, ?_⟩
      intro x hx
      exact htime x (hsub.subset (List.mem_cons_of_mem _ hx))

/-- `drop_low_priority` preserves the queue invariant. -/
theorem schedinv_drop {t : Nat} {q : List PendingDelivery}
    (hInv : SchedInv t q) (threshold : Nat) :
    SchedInv t (drop_low_priority q threshold).2 := by
  simp only [drop_low_priority]
  exact schedinv_sublist (List.filter_sublist q) hInv

/-- Every reachable scheduler state satisfies the queue invariant. -/
theorem reach_schedinv {maxQ t : Nat} {q : List PendingDelivery}
    (h : SchedReach maxQ t q) : SchedInv t q := by
  induction h with
  | init => exact ⟨List.Pairwise.nil, by simp⟩
  | enq o sp h hle ih => exact schedinv_enqueue ih hle o sp
  | deq now h ih => exact schedinv_dequeue ih now
  | drop threshold h ih => exact schedinv_drop ih threshold

/-- `dequeue` on an all-expired (or empty) queue. -/
theorem dequeue_none {q : List PendingDelivery} (now : Nat)
    (hq : q.filter (fun d => ! d.object.is_expired now) = []) :
    dequeue q now = (none, []) := by
  simp only [dequeue, hq]

/-- `dequeue` pops the head of the expiry-filtered queue; on an
invariant-satisfying queue that head is related to every later entry. -/
theorem dequeue_head {t : Nat} {q : List PendingDelivery}
    (hInv : SchedInv t q) (now : Nat) {e : PendingDelivery}
    {rest : List PendingDelivery}
    (hq : q.filter (fun d => ! d.object.is_expired now) = e :: rest) :
    dequeue q now = (some e.object, rest) ∧
      e.object.is_expired now = false ∧ ∀ x ∈ rest, SchedRel e x := by
  refine ⟨by simp only [dequeue, hq], ?_, ?_⟩
  · have he : e ∈ q.filter (fun d => ! d.object.is_expired now) := by
      rw [hq]
      exact List.mem_cons_self _ _
    simpa using (List.mem_filter.mp he).2
  · have hp2 : (e :: rest).Pairwise SchedRel :=
      List.Pairwise.sublist (hq ▸ List.filter_sublist q) hInv.1
    exact (List.pairwise_cons.mp hp2).1

/-- `position` is 0 when every entry satisfies the predicate. -/
theorem findIdx_eq_zero_of_all {α : Type} {p : α → Bool} {l : List α}
    (h : ∀ x ∈ l, p x = true) : l.findIdx p = 0 := by
  cases l with
  | nil => rfl
  | cons b rest => rw [List.findIdx_cons, h b (List.mem_cons_self _ _), cond_true]

/-- Enqueueing below every queued priority puts the new entry at the head
(and keeps only strictly-greater priorities behind it). -/
theorem enqueue_head_high {maxQ : Nat} (hmax : 1 ≤ maxQ)
    (q : List PendingDelivery) (o : MoqObject) (sp now : Nat)
    (hall : ∀ e ∈ q, sp < e.effective_priority) :
    ∃ q', enqueue maxQ q o sp now =
      ({ object := o, subscriber_priority := sp, effective_priority := sp,
         queued_at := now } : PendingDelivery) :: q' ∧
      ∀ e ∈ q', sp < e.effective_priority := by
  simp only [enqueue]
  rw [findIdx_eq_zero_of_all (fun x hx => by simpa using hall x hx),
    List.insertIdx_zero]
  split
  · cases maxQ with
    | zero => omega
    | succ m =>
        refine ⟨q.take m, by rw [List.take_succ_cons], ?_⟩
        intro e he
        exact hall e ((List.take_sublist m q).subset he)
  · exact ⟨q, rfl, hall⟩

/-- Enqueueing at or above the head's priority keeps the head. -/
theorem enqueue_keep_head {maxQ : Nat} (hmax : 1 ≤ maxQ)
    (dHi : PendingDelivery) (q : List PendingDelivery) (o : MoqObject)
    (sp now : Nat) (hgt : ¬ sp < dHi.effective_priority) :
    ∃ q', enqueue maxQ (dHi :: q) o sp now = dHi :: q' := by
  simp only [enqueue]
  rw [List.findIdx_cons]
  have hdec : decide (sp < dHi.effective_priority) = false := by simpa using hgt
  rw [hdec, cond_false, List.insertIdx_succ_cons]
  split
  · cases maxQ with
    | zero => omega
    | succ m => exact ⟨_, by rw [List.take_succ_cons]⟩
  · exact ⟨_, rfl⟩

/-! ## Claim theorems: priority scheduler -/

/-- C6 counterexample: with `max_queue_size = 0` (a reachable scheduler
configuration; the queue starts empty), both enqueued entries are trimmed
away, and the dequeue after `enqueue(o_hi, 1)` and `enqueue(o_lo, 2)` —
with `p_hi = 1 < p_lo = 2` and neither object expired — returns `None`
rather than `o_hi`. -/
theorem mms_C6_counterexample :
    oHi.is_expired 2 = false ∧ oLo.is_expired 2 = false ∧
    (dequeue (enqueue 0 (enqueue 0 [] oHi 1 0) oLo 2 1) 2).1 = none := by
  exact ⟨rfl, rfl, rfl⟩

/-- C6 (amended): in every reachable scheduler state, `dequeue` first
discards every expired entry and then returns the head of what remains —
an entry of minimal effective priority among the unexpired ones — or
`None` when nothing remains; and `enqueue(o_hi, p_hi)` then
`enqueue(o_lo, p_lo)` with `p_hi < p_lo` is followed by a `dequeue`
returning `o_hi`, provided additionally that `max_queue_size ≥ 1` (so the
fresh entry is not trimmed away) and every entry already queued has
effective priority strictly greater than `p_hi` (otherwise an
earlier-enqueued entry of priority ≤ p_hi is returned first). -/
theorem mms_C6 :
    (∀ (maxQ t : Nat) (q : List PendingDelivery) (now : Nat),
        SchedReach maxQ t q →
        (q.filter (fun d => ! d.object.is_expired now) = [] →
            dequeue q now = (none, [])) ∧
        (∀ e rest, q.filter (fun d => ! d.object.is_expired now) = e :: rest →
          dequeue q now = (some e.object, rest) ∧
          e.object.is_expired now = false ∧
          ∀ x ∈ q, x.object.is_expired now = false →
            e.effective_priority ≤ x.effective_priority)) ∧
    (∀ (maxQ t : Nat) (q : List PendingDelivery) (o_hi o_lo : MoqObject)
        (p_hi p_lo t1 t2 now : Nat),
        SchedReach maxQ t q → p_hi < p_lo → 1 ≤ maxQ →
        (∀ e ∈ q, p_hi < e.effective_priority) →
        o_hi.is_expired now = false →
        (dequeue (enqueue maxQ (enqueue maxQ q o_hi p_hi t1) o_lo p_lo t2)
            now).1 = some o_hi) := by
  constructor
  · intro maxQ t q now hreach
    have hInv := reach_schedinv hreach
    refine ⟨dequeue_none now, ?_⟩
    intro e rest hq
    obtain ⟨hdeq, hexp, hrel⟩ := dequeue_head hInv now hq
    refine ⟨hdeq, hexp, ?_⟩
    intro x hx hxexp
    have hxf : x ∈ q.filter (fun d => ! d.object.is_expired now) :=
      List.mem_filter.mpr ⟨hx, by simp [hxexp]⟩
    rw [hq] at hxf
    rcases List.mem_cons.mp hxf with rfl | hxf
    · exact Nat.le_refl _
    · have := hrel x hxf
      unfold SchedRel at this
      omega
  · intro maxQ t q o_hi o_lo p_hi p_lo t1 t2 now hreach hp hmax hall hexp
    obtain ⟨q1, he1, hall1⟩ := enqueue_head_high hmax q o_hi p_hi t1 hall
    rw [he1]
    obtain ⟨q2, he2⟩ := enqueue_keep_head hmax
      ({ object := o_hi, subscriber_priority := p_hi,
         effective_priority := p_hi, queued_at := t1 }) q1 o_lo p_lo t2
      (by show ¬ p_lo < p_hi; omega)
    rw [he2]
    simp only [dequeue]
    rw [List.filter_cons_of_pos (by simp [hexp])]

/-- C6 witness: the scenario from the empty queue with capacity 4. -/
theorem mms_C6_witness :
    (dequeue (enqueue 4 (enqueue 4 [] oHi 1 0) oLo 2 1) 2).1 = some oHi :=
  mms_C6.2 4 0 [] oHi oLo 1 2 0 1 2 SchedReach.init (by omega) (by omega)
    (by intro e he; simp at he) rfl

/-- C9: every reachable scheduler queue is sorted by effective priority
ascending with FIFO (arrival-order) tie-breaking, so `dequeue` returns the
earliest-enqueued entry among those of minimal effective priority that
survive the expiry pass. -/
theorem mms_C9 (maxQ t : Nat) (q : List PendingDelivery)
    (h : SchedReach maxQ t q) :
    q.Pairwise SchedRel ∧
    (∀ (now : Nat) (e : PendingDelivery) (rest : List PendingDelivery),
      q.filter (fun d => ! d.object.is_expired now) = e :: rest →
      (dequeue q now).1 = some e.object ∧ ∀ x ∈ rest, SchedRel e x) := by
  have hInv := reach_schedinv h
  refine ⟨hInv.1, ?_⟩
  intro now e rest hq
  obtain ⟨hdeq, -, hrel⟩ := dequeue_head hInv now hq
  exact ⟨by rw [hdeq], hrel⟩

/-- C9 witness: two equal-priority entries enqueued at ticks 0 and 1;
the queue is sorted and `dequeue` returns the earlier one. -/
theorem mms_C9_witness :
    (enqueue 4 (enqueue 4 [] oHi 5 0) oLo 5 1).Pairwise SchedRel ∧
    (dequeue (enqueue 4 (enqueue 4 [] oHi 5 0) oLo 5 1) 2).1 = some oHi := by
  have h := mms_C9 4 2 (enqueue 4 (enqueue 4 [] oHi 5 0) oLo 5 1)
    (SchedReach.enq oLo 5 (SchedReach.enq oHi 5 SchedReach.init (by omega))
      (by omega))
  refine ⟨h.1, ?_⟩
  exact (h.2 2 ⟨oHi, 5, 5, 0⟩ [⟨oLo, 5, 5, 1⟩] rfl).1

/-! ## Helper lemmas: phantom objects (`add_object` on missing groups) -/

/-- Every object `get_objects` returns is stored in the queried track. -/
theorem get_objects_subset {st : TrackStore} {params : SubscriptionParams}
    {now : Nat} : ∀ o ∈ get_objects st params now,
      o ∈ trackObjects st params.track := by
  intro o ho
  cases hfind : kfind params.track.to_path st.tracks with
  | none =>
      rw [get_objects_missing hfind] at ho
      simp at ho
  | some d =>
      rw [get_objects, hfind] at ho
      have hmemf : o ∈ filterObjects d params.filter := by
        cases hord : params.group_order with
        | Ascending =>
            rw [hord] at ho
            exact mem_isort.mp (List.mem_filter.mp ho).1
        | PublisherDefault =>
            rw [hord] at ho
            exact mem_isort.mp (List.mem_filter.mp ho).1
        | Descending =>
            rw [hord] at ho
            exact mem_isort.mp (List.mem_filter.mp ho).1
      have := filterObjects_subset params.filter o hmemf
      simpa [trackObjects, hfind] using this

/-- Eviction only removes stored objects. -/
theorem storedObjects_cleanup_subset {m : Nat} {d : TrackData} {o : MoqObject}
    (ho : o ∈ storedObjects (cleanup_old_groups m d)) : o ∈ storedObjects d := by
  rw [cleanup_old_groups] at ho
  split at ho
  · obtain ⟨p, hp, hop⟩ := mem_storedObjects.mp ho
    exact mem_storedObjects.mpr ⟨p, mem_foldl_kdel hp, hop⟩
  · exact ho

/-- After one store operation, a track's stored objects are old stored
objects or carry the operation's timestamp as `created_at`. -/
theorem trackStored_after_op (st : TrackStore) (op : StoreOp)
    (track : FullTrackName) (o : MoqObject)
    (ho : o ∈ trackObjects (applyOp st op) track) :
    o ∈ trackObjects st track ∨ o.created_at = opTime op := by
  cases op with
  | create t =>
      rw [applyOp, get_or_create_track] at ho
      cases hf : kfind t.to_path st.tracks with
      | some d0 =>
          rw [hf] at ho
          exact Or.inl ho
      | none =>
          rw [hf] at ho
          by_cases heq : t.to_path = track.to_path
          · rw [trackObjects] at ho
            simp only [heq, kfind_kset_self] at ho
            simp [storedObjects, TrackData.new] at ho
          · rw [trackObjects] at ho
            simp only [kfind_kset_ne (fun he => heq he.symm)] at ho
            exact Or.inl (by rw [trackObjects]; exact ho)
  | start t now =>
      rw [applyOp, start_group] at ho
      cases hf : kfind t.to_path st.tracks with
      | none =>
          rw [hf] at ho
          exact Or.inl ho
      | some d0 =>
          rw [hf] at ho
          by_cases heq : t.to_path = track.to_path
          · rw [trackObjects] at ho
            simp only [heq, kfind_kset_self] at ho
            have ho2 := storedObjects_cleanup_subset ho
            obtain ⟨p, hp, hop⟩ := mem_storedObjects.mp ho2
            rcases mem_kset_weak hp with rfl | hp
            · simp [groupObjects, MoqGroup.new] at hop
            · refine Or.inl ?_
              rw [trackObjects, ← heq, hf]
              exact mem_storedObjects.mpr ⟨p, hp, hop⟩
          · rw [trackObjects] at ho
            simp only [kfind_kset_ne (fun he => heq he.symm)] at ho
            exact Or.inl (by rw [trackObjects]; exact ho)
  | add t gid sgid payload now =>
      rw [applyOp, add_object] at ho
      cases hf : kfind t.to_path st.tracks with
      | none =>
          rw [hf] at ho
          exact Or.inl ho
      | some d0 =>
          rw [hf] at ho
          by_cases heq : t.to_path = track.to_path
          · rw [trackObjects] at ho
            simp only [heq, kfind_kset_self] at ho
            cases hg : kfind gid d0.groups with
            | none =>
                simp only [hg] at ho
                refine Or.inl ?_
                rw [trackObjects, ← heq, hf]
                exact ho
            | some g =>
                simp only [hg] at ho
                obtain ⟨p, hp, hop⟩ := mem_storedObjects.mp ho
                rcases mem_kset_weak hp with rfl | hp
                · have hperm := groupObjects_add_object g
                    (MoqObject.new gid sgid
                      ((kfind gid d0.next_object_id).getD 0) payload now)
                  rcases List.mem_append.mp (hperm.mem_iff.mp hop) with hop | hop
                  · refine Or.inl ?_
                    rw [trackObjects, ← heq, hf]
                    exact mem_storedObjects.mpr ⟨_, kfind_mem hg, hop⟩
                  · simp only [List.mem_singleton] at hop
                    subst hop
                    exact Or.inr rfl
                · refine Or.inl ?_
                  rw [trackObjects, ← heq, hf]
                  exact mem_storedObjects.mpr ⟨p, hp, hop⟩
          · rw [trackObjects] at ho
            simp only [kfind_kset_ne (fun he => heq he.symm)] at ho
            exact Or.inl (by rw [trackObjects]; exact ho)

/-- After a trace of operations, a track's stored objects are old stored
objects or carry some operation's timestamp. -/
theorem trackStored_after_ops (st : TrackStore) (ops : List StoreOp)
    (track : FullTrackName) (o : MoqObject)
    (ho : o ∈ trackObjects (applyOps st ops) track) :
    o ∈ trackObjects st track ∨ ∃ op ∈ ops, o.created_at = opTime op := by
  induction ops generalizing st with
  | nil => exact Or.inl (by simpa [applyOps] using ho)
  | cons op ops ih =>
      simp only [applyOps, List.foldl_cons] at ho
      rcases ih (applyOp st op) ho with h1 | ⟨op', hop', hct⟩
      · rcases trackStored_after_op st op track o h1 with h2 | hct
        · exact Or.inl h2
        · exact Or.inr ⟨op, List.mem_cons_self _ _, hct⟩
      · exact Or.inr ⟨op', List.mem_cons_of_mem _ hop', hct⟩

/-! ## Claim theorems: phantom objects -/

/-- C10: `add_object` on an existing track but a group that is not
retained (never started or already evicted, so no object-id counter
exists) returns `Some` of a fresh object with `object_id` 0, leaves the
retained groups untouched, and the returned object is never stored: no
`get_objects` call on that track after any further operations (at later
timestamps) returns it, for any filter. -/
theorem mms_C10 (st : TrackStore) (track : FullTrackName)
    (gid sgid : Nat) (payload : List Nat) (now : Nat) (d : TrackData)
    (hwf : WFstore st)
    (hfind : kfind track.to_path st.tracks = some d)
    (hg : kfind gid d.groups = none)
    (hcnt : kfind gid d.next_object_id = none) :
    (add_object st track gid sgid payload now).1 =
      some (MoqObject.new gid sgid 0 payload now) ∧
    trackObjects (add_object st track gid sgid payload now).2 track =
      trackObjects st track ∧
    (∀ (ops : List StoreOp) (params : SubscriptionParams) (now' : Nat),
      (∀ op ∈ ops, now < opTime op) → params.track = track →
      MoqObject.new gid sgid 0 payload now ∉
        get_objects (applyOps (add_object st track gid sgid payload now).2 ops)
          params now') := by
  have hwfd : WFtrack d := hwf.2 _ (kfind_mem hfind)
  have h2 : trackObjects (add_object st track gid sgid payload now).2 track =
      trackObjects st track := by
    rw [add_object, hfind]
    simp only [hg, hcnt]
    simp only [trackObjects, hfind, kfind_kset_self]
    rfl
  refine ⟨?_, h2, ?_⟩
  · rw [add_object, hfind]
    simp [hcnt]
  · intro ops params now' htimes htrack hmem
    have hmem2 := get_objects_subset _ hmem
    rw [htrack] at hmem2
    rcases trackStored_after_ops _ ops track _ hmem2 with h1 | ⟨op, hop, hct⟩
    · rw [h2] at h1
      simp only [trackObjects, hfind] at h1
      obtain ⟨p, hp, hpo⟩ := mem_storedObjects.mp h1
      have hgidp := (wftrack_obj hwfd p hp _ hpo).1
      simp only [MoqObject.new] at hgidp
      exact (kfind_eq_none.mp hg)
        (by rw [hgidp]; exact List.mem_map_of_mem Prod.fst hp)
    · have := htimes op hop
      simp only [MoqObject.new] at hct
      omega

/-- C10 witness: a phantom add at group 5 on the concrete store; after a
later `start_group` the object is still absent from a `LatestGroup`
query. -/
theorem mms_C10_witness :
    (add_object emptyLatestStore tTrack 5 0 [9] 7).1 =
      some (MoqObject.new 5 0 0 [9] 7) ∧
    trackObjects (add_object emptyLatestStore tTrack 5 0 [9] 7).2 tTrack =
      trackObjects emptyLatestStore tTrack ∧
    MoqObject.new 5 0 0 [9] 7 ∉
      get_objects (applyOps (add_object emptyLatestStore tTrack 5 0 [9] 7).2
        [StoreOp.start tTrack 8]) (mkParams FilterType.LatestGroup) 9 := by
  have h := mms_C10 emptyLatestStore tTrack 5 0 [9] 7 _ (by decide) rfl rfl rfl
  refine ⟨h.1, h.2.1, ?_⟩
  exact h.2.2 [StoreOp.start tTrack 8] (mkParams FilterType.LatestGroup) 9
    (by
      intro op hop
      rw [List.mem_singleton] at hop
      subst hop
      decide) rfl

/-! ## Claim theorems: quality recommendation -/

/-- C7 counterexample: at a smoothed bandwidth of 10 Mbps (10000 kbps) the
code recommends `P1080`, although `P180` also satisfies
`bitrate × 2 ≤ bandwidth` and is a lower rendition — so the result is not
the lowest satisfying rendition the claim describes. -/
theorem mms_C7_counterexample :
    recommended_quality c7Stats = VideoQuality.P1080 ∧
    VideoQuality.P180.bitrate_kbps * 2 ≤ c7Stats.bandwidth_bps / 1000 ∧
    VideoQuality.rank VideoQuality.P180 < VideoQuality.rank VideoQuality.P1080 := by
  decide

/-- C7 (amended): `recommended_quality` returns the HIGHEST rendition
whose advertised bitrate × 2 is at most the bandwidth in kbps, and the
lowest rendition (`P180`) when none qualifies. -/
theorem mms_C7 (s : ConnectionStats) :
    ((recommended_quality s).bitrate_kbps * 2 ≤ s.bandwidth_bps / 1000 ∨
      recommended_quality s = VideoQuality.P180) ∧
    (∀ q : VideoQuality, q.bitrate_kbps * 2 ≤ s.bandwidth_bps / 1000 →
      q.rank ≤ (recommended_quality s).rank) := by
  constructor
  · simp only [recommended_quality]
    split_ifs with h1 h2 h3 <;>
      simp [VideoQuality.bitrate_kbps] at * <;> omega
  · intro q hq
    simp only [recommended_quality]
    split_ifs with h1 h2 h3 <;> cases q <;>
      simp [VideoQuality.bitrate_kbps, VideoQuality.rank] at * <;> omega

/-- C7 witness: the amended statement applied at 10 Mbps with `P360`. -/
theorem mms_C7_witness :
    VideoQuality.rank VideoQuality.P360 ≤ (recommended_quality c7Stats).rank :=
  (mms_C7 c7Stats).2 VideoQuality.P360 (by decide)

/-! ## Helper lemmas: postcard wire format round trips -/

/-- Decoding a varint prefix recovers the value. -/
theorem readVarint_varint (n : Nat) (rest : List Nat) :
    readVarint (varint n ++ rest) = some (n, rest) := by
  induction n using Nat.strong_induction_on with
  | _ n ih =>
      rw [varint]
      by_cases h : n < 128
      · simp [if_pos h, readVarint, h]
      · rw [if_neg h]
        have hm : ¬ (n % 128 + 128 < 128) := by omega
        have ihh : readVarint ((varint (n / 128)).append rest) =
            some (n / 128, rest) :=
          ih (n / 128) (Nat.div_lt_self (by omega) (by omega))
        simp only [List.cons_append, readVarint, hm, if_false, ihh]
        have he : n % 128 + 128 - 128 + 128 * (n / 128) = n := by omega
        rw [he]

/-- Reading back exactly the bytes just written. -/
theorem readBytes_append {n : Nat} {l rest : List Nat}
    (h : l.length = n) : readBytes n (l ++ rest) = some (l, rest) := by
  subst h
  rw [readBytes, if_pos (by simp), List.take_left, List.drop_left]

/-- Length-prefixed byte strings round-trip. -/
theorem readBytesVar_enc (s rest : List Nat) :
    readBytesVar (encBytesVar s ++ rest) = some (s, rest) := by
  rw [encBytesVar, List.append_assoc, readBytesVar, readVarint_varint]
  exact readBytes_append rfl

/-- Options round-trip given a round-tripping payload codec. -/
theorem readOptionP_enc {α : Type} (fenc : α → List Nat)
    (fdec : List Nat → Option (α × List Nat)) (o : Option α) (rest : List Nat)
    (hf : ∀ a rest', fdec (fenc a ++ rest') = some (a, rest')) :
    readOptionP fdec (encOptionP fenc o ++ rest) = some (o, rest) := by
  cases o with
  | none => simp [encOptionP, readOptionP]
  | some a => simp [encOptionP, readOptionP, hf]

/-- Counted sequences round-trip given per-element round trips. -/
theorem readN_enc {α : Type} (fenc : α → List Nat)
    (fdec : List Nat → Option (α × List Nat)) (l : List α) (rest : List Nat)
    (hf : ∀ a ∈ l, ∀ rest', fdec (fenc a ++ rest') = some (a, rest')) :
    readN fdec l.length ((l.map fenc).flatten ++ rest) = some (l, rest) := by
  induction l with
  | nil => simp [readN]
  | cons a as ih =>
      simp only [List.map_cons, List.flatten_cons, List.length_cons,
        List.append_assoc, readN, hf a (List.mem_cons_self _ _),
        ih (fun x hx => hf x (List.mem_cons_of_mem _ hx))]

/-- Length-prefixed sequences round-trip. -/
theorem readListP_enc {α : Type} (fenc : α → List Nat)
    (fdec : List Nat → Option (α × List Nat)) (l : List α) (rest : List Nat)
    (hf : ∀ a ∈ l, ∀ rest', fdec (fenc a ++ rest') = some (a, rest')) :
    readListP fdec (encListP fenc l ++ rest) = some (l, rest) := by
  rw [encListP, List.append_assoc, readListP, readVarint_varint]
  exact readN_enc fenc fdec l rest hf

/-- Socket addresses round-trip. -/
theorem readSockAddr_enc (a : SockAddr) (rest : List Nat)
    (hwf : WFsockAddr a) :
    readSockAddr (encSockAddr a ++ rest) = some (a, rest) := by
  cases a with
  | v4 ip port =>
      obtain ⟨hlen, -, -⟩ := hwf
      simp [encSockAddr, readSockAddr, List.append_assoc,
        readBytes_append hlen, readVarint_varint]
  | v6 ip port =>
      obtain ⟨hlen, -, -⟩ := hwf
      simp [encSockAddr, readSockAddr, List.append_assoc,
        readBytes_append hlen, readVarint_varint]

/-- The postcard record for a `LiveTicket` round-trips. -/
theorem readTicket_enc (t : LiveTicket) (rest : List Nat)
    (hlen : t.endpoint_id.length = 32)
    (haddrs : ∀ a ∈ t.direct_addrs, WFsockAddr a) :
    readTicket (encTicket t ++ rest) = some (t, rest) := by
  have hopt : ∀ r' : List Nat,
      readOptionP readBytesVar (encOptionP encBytesVar t.relay_url ++ r') =
        some (t.relay_url, r') :=
    fun r' => readOptionP_enc encBytesVar readBytesVar t.relay_url r'
      readBytesVar_enc
  have hlist : ∀ r' : List Nat,
      readListP readSockAddr (encListP encSockAddr t.direct_addrs ++ r') =
        some (t.direct_addrs, r') :=
    fun r' => readListP_enc encSockAddr readSockAddr t.direct_addrs r'
      (fun a ha rest' => readSockAddr_enc a rest' (haddrs a ha))
  simp only [encTicket, List.append_assoc, readTicket,
    readBytes_append hlen, readBytesVar_enc, hopt, hlist]

/-- Varint bytes are below 256. -/
theorem varint_lt (n : Nat) : ∀ b ∈ varint n, b < 256 := by
  induction n using Nat.strong_induction_on with
  | _ n ih =>
      intro b hb
      rw [varint] at hb
      by_cases h : n < 128
      · rw [if_pos h] at hb
        simp only [List.mem_singleton] at hb
        omega
      · rw [if_neg h] at hb
        rcases List.mem_cons.mp hb with rfl | hb
        · omega
        · exact ih (n / 128) (Nat.div_lt_self (by omega) (by omega)) b hb

/-- Length-prefixed byte strings stay below 256. -/
theorem encBytesVar_lt {s : List Nat} (hs : ∀ b ∈ s, b < 256) :
    ∀ b ∈ encBytesVar s, b < 256 := by
  intro b hb
  rcases List.mem_append.mp hb with hb | hb
  · exact varint_lt _ b hb
  · exact hs b hb

/-- Encoded socket addresses stay below 256. -/
theorem encSockAddr_lt {a : SockAddr} (hwf : WFsockAddr a) :
    ∀ b ∈ encSockAddr a, b < 256 := by
  intro b hb
  cases a with
  | v4 ip port =>
      obtain ⟨-, hip, -⟩ := hwf
      rcases List.mem_cons.mp hb with rfl | hb
      · omega
      · rcases List.mem_append.mp hb with hb | hb
        · exact hip b hb
        · exact varint_lt _ b hb
  | v6 ip port =>
      obtain ⟨-, hip, -⟩ := hwf
      rcases List.mem_cons.mp hb with rfl | hb
      · omega
      · rcases List.mem_append.mp hb with hb | hb
        · exact hip b hb
        · exact varint_lt _ b hb

/-- The encoded ticket record is a byte string. -/
theorem encTicket_lt {t : LiveTicket} (hwf : WFticket t) :
    ∀ b ∈ encTicket t, b < 256 := by
  obtain ⟨-, heid, hname, hurl, haddrs⟩ := hwf
  intro b hb
  rcases List.mem_append.mp hb with hb | hb
  · rcases List.mem_append.mp hb with hb | hb
    · rcases List.mem_append.mp hb with hb | hb
      · exact heid b hb
      · exact encBytesVar_lt hname b hb
    · cases hu : t.relay_url with
      | none =>
          rw [hu] at hb
          simp only [encOptionP, List.mem_singleton] at hb
          omega
      | some s =>
          rw [hu] at hb
          simp only [encOptionP] at hb
          rcases List.mem_cons.mp hb with rfl | hb
          · omega
          · exact encBytesVar_lt (hurl s hu) b hb
  · rcases List.mem_append.mp hb with hb | hb
    · exact varint_lt _ b hb
    · obtain ⟨bs, hbs, hbin⟩ := List.mem_flatten.mp hb
      obtain ⟨a, ha, rfl⟩ := List.mem_map.mp hbs
      exact encSockAddr_lt (haddrs a ha) b hbin

/-! ## Helper lemmas: positional digits and base32 -/

/-- A digit expansion has the requested width. -/
theorem toDigitsLE_length (B k : Nat) : ∀ n, (toDigitsLE B k n).length = k := by
  induction k with
  | zero => intro n; rfl
  | succ k ih => intro n; simp [toDigitsLE, ih]

/-- All digits are below the base. -/
theorem toDigitsLE_lt {B : Nat} (hB : 0 < B) (k : Nat) :
    ∀ n, ∀ d ∈ toDigitsLE B k n, d < B := by
  induction k with
  | zero => intro n d hd; simp [toDigitsLE] at hd
  | succ k ih =>
      intro n d hd
      rcases List.mem_cons.mp hd with rfl | hd
      · exact Nat.mod_lt n hB
      · exact ih (n / B) d hd

/-- Recomposing the digits of a small enough number gives it back. -/
theorem fromDigitsLE_toDigitsLE (B : Nat) (k : Nat) :
    ∀ n, n < B ^ k → fromDigitsLE B (toDigitsLE B k n) = n := by
  induction k with
  | zero =>
      intro n h
      simp only [pow_zero, Nat.lt_one_iff] at h
      subst h
      rfl
  | succ k ih =>
      intro n h
      have hB : 0 < B := by
        rcases Nat.eq_zero_or_pos B with rfl | hB
        · simp at h
        · exact hB
      have hdiv : n / B < B ^ k := by
        rw [Nat.div_lt_iff_lt_mul hB]
        rw [pow_succ] at h
        exact h
      simp only [toDigitsLE, fromDigitsLE, List.foldr_cons]
      have := ih (n / B) hdiv
      rw [fromDigitsLE] at this
      rw [this]
      exact Nat.mod_add_div n B

/-- Expanding a recomposed digit list gives it back. -/
theorem toDigitsLE_fromDigitsLE (B : Nat) :
    ∀ l : List Nat, (∀ d ∈ l, d < B) →
      toDigitsLE B l.length (fromDigitsLE B l) = l := by
  intro l
  induction l with
  | nil => intro hB; rfl
  | cons d rest ih =>
      intro hB
      have hd : d < B := hB d (List.mem_cons_self _ _)
      have hBpos : 0 < B := Nat.lt_of_le_of_lt (Nat.zero_le d) hd
      simp only [fromDigitsLE, List.foldr_cons, List.length_cons, toDigitsLE]
      rw [Nat.add_mul_mod_self_left, Nat.mod_eq_of_lt hd,
        Nat.add_mul_div_left _ _ hBpos, Nat.div_eq_of_lt hd, Nat.zero_add]
      have := ih (fun x hx => hB x (List.mem_cons_of_mem _ hx))
      rw [fromDigitsLE] at this
      rw [this]

/-- A digit list's value is below `B ^ length`. -/
theorem fromDigitsLE_lt (B : Nat) :
    ∀ l : List Nat, (∀ d ∈ l, d < B) →
      fromDigitsLE B l < B ^ l.length := by
  intro l
  induction l with
  | nil => intro hB; simp [fromDigitsLE]
  | cons d rest ih =>
      intro hB
      have hd : d < B := hB d (List.mem_cons_self _ _)
      have hm := ih (fun x hx => hB x (List.mem_cons_of_mem _ hx))
      simp only [fromDigitsLE, List.foldr_cons, List.length_cons]
      rw [fromDigitsLE] at hm
      calc d + B * (rest.foldr (fun d acc => d + B * acc) 0)
          < B + B * (rest.foldr (fun d acc => d + B * acc) 0) := by omega
        _ = B * ((rest.foldr (fun d acc => d + B * acc) 0) + 1) := by ring
        _ ≤ B * B ^ rest.length := Nat.mul_le_mul_left B (by omega)
        _ = B ^ (rest.length + 1) := by rw [pow_succ, Nat.mul_comm]

/-- Width of a big-endian expansion. -/
theorem toDigitsBE_length (B k n : Nat) : (toDigitsBE B k n).length = k := by
  simp [toDigitsBE, toDigitsLE_length]

/-- Big-endian digits are below the base. -/
theorem toDigitsBE_lt {B : Nat} (hB : 0 < B) (k n : Nat) :
    ∀ d ∈ toDigitsBE B k n, d < B := by
  intro d hd
  rw [toDigitsBE, List.mem_reverse] at hd
  exact toDigitsLE_lt hB k n d hd

/-- Big-endian recomposition of an expansion. -/
theorem fromDigitsBE_toDigitsBE {B k n : Nat} (h : n < B ^ k) :
    fromDigitsBE B (toDigitsBE B k n) = n := by
  rw [fromDigitsBE, toDigitsBE, List.reverse_reverse]
  exact fromDigitsLE_toDigitsLE B k n h

/-- Big-endian expansion of a recomposition. -/
theorem toDigitsBE_fromDigitsBE {B : Nat} {l : List Nat}
    (hB : ∀ d ∈ l, d < B) :
    toDigitsBE B l.length (fromDigitsBE B l) = l := by
  rw [fromDigitsBE, toDigitsBE,
    show l.length = l.reverse.length from (List.length_reverse l).symm,
    toDigitsLE_fromDigitsLE B l.reverse
      (fun d hd => hB d (List.mem_reverse.mp hd))]
  exact List.reverse_reverse l

/-- Big-endian value bound. -/
theorem fromDigitsBE_lt {B : Nat} {l : List Nat} (hB : ∀ d ∈ l, d < B) :
    fromDigitsBE B l < B ^ l.length := by
  rw [fromDigitsBE, show l.length = l.reverse.length from
    (List.length_reverse l).symm]
  exact fromDigitsLE_lt B l.reverse (fun d hd => hB d (List.mem_reverse.mp hd))

/-- `chunksOf` of the empty list. -/
theorem chunksOf_nil {α : Type} (n : Nat) : chunksOf n ([] : List α) = [] := by
  rw [chunksOf]
  simp

/-- `chunksOf` peels a full leading block. -/
theorem chunksOf_append {α : Type} {n : Nat} {a : List α} (l : List α)
    (ha : a.length = n) (hn : 0 < n) :
    chunksOf n (a ++ l) = a :: chunksOf n l := by
  have hane : a ≠ [] := by
    intro he
    rw [he] at ha
    simp at ha
    omega
  rw [chunksOf]
  rw [dif_neg (by
    simp only [not_or, List.isEmpty_iff]
    refine ⟨?_, by omega⟩
    intro he
    exact hane (List.append_eq_nil.mp he).1)]
  rw [← ha, List.take_left, List.drop_left]

/-- `chunksOf` of a short non-empty list is that single block. -/
theorem chunksOf_short {α : Type} {n : Nat} {l : List α} (hne : l ≠ [])
    (hle : l.length ≤ n) : chunksOf n l = [l] := by
  have hn : 0 < n := Nat.lt_of_lt_of_le (List.length_pos.mpr hne) hle
  rw [chunksOf]
  rw [dif_neg (by simp only [not_or, List.isEmpty_iff]; exact ⟨hne, by omega⟩)]
  rw [List.take_all_of_le hle, List.drop_eq_nil_of_le hle, chunksOf_nil]

/-- One base32 block decodes back to its bytes. -/
theorem decChunk_encChunk (chunk : List Nat) (hb : ∀ b ∈ chunk, b < 256) :
    decChunk (encChunk chunk) = chunk := by
  have hc1 : 8 * chunk.length ≤ 5 * b32chars chunk.length := by
    rw [b32chars]; omega
  have hc2 : 5 * b32chars chunk.length ≤ 8 * chunk.length + 4 := by
    rw [b32chars]; omega
  have hN : fromDigitsBE 256 chunk < 256 ^ chunk.length :=
    fromDigitsBE_lt hb
  have hpadd : 8 * chunk.length + b32pad chunk.length =
      5 * b32chars chunk.length := by
    rw [b32pad]; omega
  have hMlt : fromDigitsBE 256 chunk * 2 ^ b32pad chunk.length <
      32 ^ b32chars chunk.length := by
    have h256 : (256 : Nat) = 2 ^ 8 := by norm_num
    have h32 : (32 : Nat) = 2 ^ 5 := by norm_num
    have hpow : 0 < 2 ^ b32pad chunk.length :=
      Nat.pos_pow_of_pos _ (by omega)
    calc fromDigitsBE 256 chunk * 2 ^ b32pad chunk.length
        < 256 ^ chunk.length * 2 ^ b32pad chunk.length :=
          (Nat.mul_lt_mul_right hpow).mpr hN
      _ = 2 ^ (8 * chunk.length) * 2 ^ b32pad chunk.length := by
          rw [h256, ← pow_mul]
      _ = 2 ^ (8 * chunk.length + b32pad chunk.length) := by
          rw [pow_add]
      _ = 2 ^ (5 * b32chars chunk.length) := by rw [hpadd]
      _ = 32 ^ b32chars chunk.length := by rw [h32, ← pow_mul]
  rw [decChunk, encChunk, toDigitsBE_length]
  have hr : 5 * b32chars chunk.length / 8 = chunk.length := by omega
  rw [hr, fromDigitsBE_toDigitsBE hMlt]
  have hpe : 5 * b32chars chunk.length - 8 * chunk.length =
      b32pad chunk.length := by
    rw [b32pad]
  rw [hpe, Nat.mul_div_cancel _ (Nat.pos_pow_of_pos _ (by omega))]
  exact toDigitsBE_fromDigitsBE hb

/-- Base32 digit values of one block are below 32. -/
theorem encChunk_lt (chunk : List Nat) : ∀ d ∈ encChunk chunk, d < 32 :=
  toDigitsBE_lt (by omega) _ _

/-- A full 5-byte block encodes to exactly 8 characters. -/
theorem encChunk_length (chunk : List Nat) :
    (encChunk chunk).length = b32chars chunk.length :=
  toDigitsBE_length _ _ _

/-- The chunked decode of the chunked encode is the identity on byte
lists. -/
theorem decode_chunks : ∀ (N : Nat) (bytes : List Nat), bytes.length ≤ N →
    (∀ b ∈ bytes, b < 256) →
    ((chunksOf 8 (((chunksOf 5 bytes).map encChunk).flatten)).map
      decChunk).flatten = bytes := by
  intro N
  induction N with
  | zero =>
      intro bytes hlen hb
      have : bytes = [] := List.length_eq_zero.mp (by omega)
      subst this
      simp [chunksOf_nil]
  | succ N ih =>
      intro bytes hlen hb
      rcases eq_or_ne bytes [] with rfl | hne
      · simp [chunksOf_nil]
      · by_cases hge : 5 ≤ bytes.length
        · have htl : (bytes.take 5).length = 5 := by
            rw [List.length_take]
            omega
          have hsplit := List.take_append_drop 5 bytes
          conv_lhs => rw [← hsplit]
          rw [chunksOf_append (bytes.drop 5) htl (by omega), List.map_cons,
            List.flatten_cons,
            chunksOf_append _ (by rw [encChunk_length, htl]; rfl) (by omega),
            List.map_cons, List.flatten_cons,
            decChunk_encChunk _ (fun b hbm => hb b ((List.take_sublist 5 bytes).subset hbm)),
            ih (bytes.drop 5) (by rw [List.length_drop]; omega)
              (fun b hbm => hb b ((List.drop_sublist 5 bytes).subset hbm))]
          exact hsplit
        · rw [chunksOf_short hne (by omega), List.map_cons, List.map_nil,
            List.flatten_cons, List.flatten_nil, List.append_nil]
          have hcne : encChunk bytes ≠ [] := by
            intro he
            have := encChunk_length bytes
            rw [he] at this
            simp only [List.length_nil] at this
            rw [b32chars] at this
            have hpos : 0 < bytes.length := List.length_pos.mpr hne
            omega
          rw [chunksOf_short hcne (by
            rw [encChunk_length, b32chars]
            omega), List.map_cons, List.map_nil, List.flatten_cons,
            List.flatten_nil, List.append_nil]
          exact decChunk_encChunk bytes hb

/-- Lowercasing then uppercasing is the identity on base32 alphabet
characters. -/
theorem b32_alpha_case : ∀ v, v < 32 →
    asciiUpper (asciiLower (b32alpha v)) = b32alpha v := by
  decide

/-- The alphabet lookup inverts the alphabet map. -/
theorem b32_val_alpha : ∀ v, v < 32 → b32val (b32alpha v) = v := by
  decide

/-- Lowercasing then uppercasing the base32 text decodes back to the
original bytes. -/
theorem base32_roundtrip (bytes : List Nat) (hb : ∀ b ∈ bytes, b < 256) :
    base32decode (((base32encode bytes).map asciiLower).map asciiUpper) =
      bytes := by
  have hdig : ∀ d ∈ (((chunksOf 5 bytes).map encChunk).flatten), d < 32 := by
    intro d hd
    obtain ⟨ds, hds, hdin⟩ := List.mem_flatten.mp hd
    obtain ⟨c, hc, rfl⟩ := List.mem_map.mp hds
    exact encChunk_lt c d hdin
  have hid : ((base32encode bytes).map asciiLower).map asciiUpper =
      base32encode bytes := by
    rw [List.map_map, base32encode, List.map_map]
    exact List.map_congr_left (fun d hd => b32_alpha_case d (hdig d hd))
  rw [hid, base32encode, base32decode, List.map_map]
  have hvals : (((chunksOf 5 bytes).map encChunk).flatten).map
      (b32val ∘ b32alpha) =
      (((chunksOf 5 bytes).map encChunk).flatten).map id :=
    List.map_congr_left (fun d hd => b32_val_alpha d (hdig d hd))
  rw [hvals, List.map_id]
  exact decode_chunks (bytes.length) bytes (Nat.le_refl _) hb

/-! ## Claim theorem: ticket round trip -/

/-- C8: for every well-formed ticket (32-byte endpoint id, byte-valued
strings, well-typed socket addresses), `LiveTicket::deserialize` of
`LiveTicket::serialize` returns the ticket unchanged. -/
theorem mms_C8 (t : LiveTicket) (hwf : WFticket t) :
    LiveTicket.deserialize (LiveTicket.serialize t) = some t := by
  have hlen := hwf.1
  have haddrs := hwf.2.2.2.2
  rw [LiveTicket.serialize, LiveTicket.deserialize,
    base32_roundtrip (encTicket t) (encTicket_lt hwf)]
  have hdec := readTicket_enc t [] hlen haddrs
  rw [List.append_nil] at hdec
  rw [hdec]
  rfl

/-- C8 witness: the round trip evaluated on a concrete ticket with a
relay URL and both address kinds. -/
theorem mms_C8_witness :
    WFticket sampleTicket ∧
    LiveTicket.deserialize (LiveTicket.serialize sampleTicket) =
      some sampleTicket :=
  ⟨by decide, mms_C8 sampleTicket (by decide)⟩

end MMS
